import Mathlib

/-!
Verification of the CoronaRoom capsule-allocation engine.

This file gives a shallow embedding of the core allocation-and-repair
engine (`src/room.py`, `src/constraints.py`, `src/capsule.py`) and proves
or refutes the frozen claims about it.

Modelling conventions:
* Python machine state is passed explicitly; mutation of the shared
  `room_mapping` dict and of `Capsule` objects becomes explicit state
  threading on `MState`.
* Exceptions (`ValueError`, `RuntimeError`, `KeyError`, `NameError`,
  `ZeroDivisionError`) become the `Except PyError` monad.
* A room's `gender` is an arbitrary natural number: the Python code never
  restricts it to the two-element `Gender` enum (the value stored in a
  `Room` is whatever the caller's gender dictionary contains), and the
  `GenderConstraint` explicitly handles more than two distinct values.
* Python dicts preserve insertion order; `room_mapping` is embedded as an
  association list (`Mapping`) whose update-in-place-or-append operation
  `setMap` mirrors `d[key] = value`.
* Randomness: `shuffle_list` lives in the module `common`, which is not
  part of the sources; it is modelled from the spec as returning a random
  permutation of its input.  All randomness is supplied through an
  explicit oracle `R : ℕ → List ℕ` together with a call counter `k`; the
  `k`-th shuffle of a list `l` interprets `R k` as a permutation of the
  positions of `l` (any `R k` that is not such a permutation leaves `l`
  unchanged, so every permutation of `l` — and nothing else — is an
  achievable outcome).
-/

namespace CoronaRoom

/-- A room (`src/room.py`): an indivisible allocation unit.  Only the
fields the core engine reads are modelled: the identifying `index` and the
`gender` attribute.  (The occupant list and derived count are never used
by the allocation engine.)  The attached constraint list lives outside the
structure, as the map `Config.rc`, to sidestep the `Room`/`Constraint`
mutual reference; it is fixed during an engine run, exactly as in the
source. -/
structure Room where
  index : Nat
  gender : Nat
deriving DecidableEq, Repr

/-- Python exception classes that the embedded code can raise. -/
inductive PyError where
  | valueError (msg : String)
  | runtimeError (msg : String)
  | nameError (msg : String)
  | keyError (msg : String)
  | zeroDivisionError (msg : String)
deriving DecidableEq, Repr

/-- An `Action` (`src/constraints.py`): a single suggested mutation of the
shared room mapping. -/
inductive Action where
  | Reduce (capsule_index : Nat) (room : Room)
  | Add (capsule_index : Nat) (room : Room)
deriving DecidableEq, Repr

/-- A `Constraint` (`src/constraints.py`): one of the three variants. -/
inductive Constraint where
  | GenderConstraint
  | RoomCountConstraint (max_room_count : Nat)
  | ConnectingConstraint (room1 room2 : Room)
deriving DecidableEq, Repr

/-- `order` of each constraint class (`src/constraints.py`):
`GenderConstraint.order = 20`, `ConnectingConstraint.order = 10`, and
`RoomCountConstraint.order = (max_room_count - 2) * 8` (an integer, since
it is negative for `max_room_count < 2`). -/
def Constraint.order : Constraint → Int
  | .GenderConstraint => 20
  | .RoomCountConstraint m => ((m : Int) - 2) * 8
  | .ConnectingConstraint _ _ => 10

/-- Modelled from the spec: `shuffle_list` is imported from the module
`common`, which is not among the sources; per the spec it returns a random
permutation of the given list.  The randomness is made explicit: `p` is
the oracle's choice of a permutation of the positions of `l`.  If `p` is
a permutation of `[0, ..., l.length - 1]` the elements are rearranged
accordingly, otherwise `l` is returned unchanged; hence the result is
always a permutation of `l`, and every permutation of `l` arises from a
suitable `p`. -/
def shuffle_list (p : List Nat) (l : List α) : List α :=
  if p.Perm (List.range l.length) then p.filterMap l.get? else l

/-- Distinct elements of `l`, in order of first occurrence — the key set
of Python's `collections.Counter` built from `l`. -/
def counterKeys (l : List Nat) : List Nat :=
  l.foldl (fun acc a => if a ∈ acc then acc else acc ++ [a]) []

/-- `Counter(l).most_common()`: the distinct elements of `l` sorted by
descending multiplicity.  CPython implements this with a stable sort, so
elements of equal multiplicity keep their first-occurrence order; the
stable `insertionSort` mirrors that. -/
def mostCommon (l : List Nat) : List Nat :=
  List.insertionSort (fun g1 g2 => l.count g2 ≤ l.count g1) (counterKeys l)

/-- Message of the `ValueError` raised by `GenderConstraint.is_valid`. -/
def genderErrorMessage (n : Nat) : String :=
  s!"Cannot have {n} genders."

/-- `Constraint.is_valid(capsule_index, rooms)` (`src/constraints.py`).
Returns the `(is_valid, state)` pair together with the advanced oracle
counter (only the invalid branch of `RoomCountConstraint` consumes a
shuffle).  `GenderConstraint` raises `ValueError` when the number of
distinct genders is not 1 or 2. -/
def Constraint.is_valid (c : Constraint) (R : Nat → List Nat) (k : Nat)
    (capsule_index : Nat) (rooms : List Room) :
    Except PyError ((Bool × List Action) × Nat) :=
  match c with
  | .GenderConstraint =>
    let genders := rooms.map Room.gender
    let keys := counterKeys genders
    if keys.length = 1 then
      .ok ((true, []), k)
    else if keys.length = 2 then
      let least_common_gender := (mostCommon genders).getLastD 0
      .ok ((false,
            (rooms.filter (fun r => r.gender = least_common_gender)).map
              (Action.Reduce capsule_index)), k)
    else
      .error (.valueError (genderErrorMessage keys.length))
  | .RoomCountConstraint max_room_count =>
    if rooms.length ≤ max_room_count then
      .ok ((true, []), k)
    else
      let to_reduce := rooms.length - max_room_count
      .ok ((false,
            ((shuffle_list (R k) rooms).take to_reduce).map
              (Action.Reduce capsule_index)), k + 1)
  | .ConnectingConstraint room1 room2 =>
    let b1 : Bool := decide (room1 ∈ rooms)
    let b2 : Bool := decide (room2 ∈ rooms)
    if b1 ≠ b2 then
      if b1 = false then .ok ((false, [Action.Add capsule_index room1]), k)
      else .ok ((false, [Action.Add capsule_index room2]), k)
    else
      .ok ((true, []), k)

/-- The effect of `Action.do(room_mapping)` on the value stored for the
action's room: `Reduce` stores `None`, `Add` stores its capsule index. -/
def Action.targetValue : Action → Option Nat
  | .Reduce _ _ => none
  | .Add capsule_index _ => some capsule_index

/-- The room an action mutates. -/
def Action.room : Action → Room
  | .Reduce _ r => r
  | .Add _ r => r

/-- The shared `room_mapping` dict: association list from rooms to an
optional capsule index, in dict insertion order. -/
abbrev Mapping := List (Room × Option Nat)

/-- `d[room] = v` on a Python dict: update the key's entry in place
(keeping its position) if present, otherwise append the new key at the
end.  (Python dict keys are unique, so updating the first matching entry
is exact.) -/
def setMap : Mapping → Room → Option Nat → Mapping
  | [], r, v => [(r, v)]
  | p :: t, r, v => if p.1 = r then (r, v) :: t else p :: setMap t r v

/-- Dict lookup: `some v` when `r` is a key bound to `v`, `none` when `r`
is not a key. -/
def mapLookup : Mapping → Room → Option (Option Nat)
  | [], _ => none
  | p :: t, r => if p.1 = r then some p.2 else mapLookup t r

/-- `Action.do(room_mapping)` (`src/constraints.py`): `Reduce` sets the
room's entry to `None`, `Add` sets it to the action's capsule index. -/
def Action.doAction (a : Action) (m : Mapping) : Mapping :=
  setMap m a.room a.targetValue

/-- A `Capsule` (`src/capsule.py`): its fixed `index`, its derived member
`rooms`, and its current `constraints` list (derived from the member
rooms, and — as in the source — extended in place with the global
constraints by `apply_constraints`). -/
structure Capsule where
  index : Nat
  rooms : List Room
  constraints : List Constraint
deriving DecidableEq, Repr

/-- `Capsule.update(room_mapping)` followed by `_update_constraints`
(`src/capsule.py`): recompute the member rooms from the mapping (rooms
whose value equals this capsule's index, in dict order) and rebuild the
constraint list as the concatenation of the member rooms' own constraint
lists.  `rc` is the fixed room → attached-constraints table. -/
def Capsule.update (rc : Room → List Constraint) (m : Mapping)
    (cap : Capsule) : Capsule :=
  let rooms := m.filterMap (fun p => if p.2 = some cap.index then some p.1 else none)
  ⟨cap.index, rooms, (rooms.map rc).flatten⟩

/-- The body of `Capsule._is_valid`'s loop: check each constraint in the
given (already sorted) order, returning the first invalid constraint's
`(False, state)` immediately and `(True, [])` if all pass.  Errors raised
by a constraint propagate. -/
def checkConstraints (R : Nat → List Nat) (k : Nat) (capsule_index : Nat)
    (rooms : List Room) :
    List Constraint → Except PyError ((Bool × List Action) × Nat)
  | [] => .ok ((true, []), k)
  | c :: rest =>
    match c.is_valid R k capsule_index rooms with
    | .error e => .error e
    | .ok ((true, _), k') => checkConstraints R k' capsule_index rooms rest
    | .ok ((false, state), k') => .ok ((false, state), k')

/-- The sort performed by `Capsule._is_valid`:
`sorted(self.constraints, key=lambda c: c.order)` — a stable ascending
sort by `order`, mirrored by the stable `insertionSort`. -/
def sortConstraints (cs : List Constraint) : List Constraint :=
  List.insertionSort (fun a b => a.order ≤ b.order) cs

/-- `Capsule._is_valid` (`src/capsule.py`): check the capsule's
constraints in ascending `order`, short-circuiting at the first
violation. -/
def Capsule.is_valid (R : Nat → List Nat) (k : Nat) (cap : Capsule) :
    Except PyError ((Bool × List Action) × Nat) :=
  checkConstraints R k cap.index cap.rooms (sortConstraints cap.constraints)

/-- `Capsule.apply_constraints(global_constraints)` (`src/capsule.py`):
extends `self.constraints` with the global constraints **in place** and
runs `_is_valid`.  Returns the mutated capsule together with the check
result. -/
def Capsule.apply_constraints (R : Nat → List Nat) (k : Nat)
    (global_constraints : List Constraint) (cap : Capsule) :
    Capsule × Except PyError ((Bool × List Action) × Nat) :=
  let cap' : Capsule := { cap with constraints := cap.constraints ++ global_constraints }
  (cap', cap'.is_valid R k)

/-- The fixed data of a `CapsulesManager` run: the room table
(`self.rooms`, a dict in insertion order), the attached-constraints table,
and the constructor arguments. -/
structure Config where
  rc : Room → List Constraint
  rooms : List Room
  capsules_count : Nat
  global_constraints : List Constraint
  max_tries_count : Nat
  max_fixes_count : Nat

/-- The manager's mutable state: the shared `room_mapping` and the
current `self.capsules` (dict values in index order). -/
structure MState where
  mapping : Mapping
  capsules : List Capsule
deriving DecidableEq, Repr

/-- `self.rooms[room_index]`: dict lookup of a room by its index
(`self.rooms` maps indices to rooms). -/
def findRoom (rooms : List Room) (i : Nat) : Option Room :=
  rooms.find? (fun r => r.index = i)

/-- Perform a sequence of `room_mapping[self.rooms[room_index]] =
capsule_index` assignments, in order; a missing room index raises
`KeyError` as in Python. -/
def assignRooms (rooms : List Room) (pairs : List (Nat × Nat)) (m : Mapping) :
    Except PyError Mapping :=
  match pairs with
  | [] => .ok m
  | (ci, ri) :: rest =>
    match findRoom rooms ri with
    | none => .error (.keyError (toString ri))
    | some r => assignRooms rooms rest (setMap m r (some ci))

/-- Python slice `l[a : b]` for `0 ≤ a ≤ b`. -/
def slice (l : List α) (a b : Nat) : List α :=
  (l.drop a).take (b - a)

/-- The `(capsule_index, room_index)` assignments performed by the block
loop of `allocate_rooms_randomly`: for each `capsule_index` in the
shuffled capsule sequence, the rooms of slice
`[capsule_index * factor : (capsule_index + 1) * factor]` of the shuffled
room sequence. -/
def blockPairs (shuffled_capsules shuffled_rooms : List Nat) (factor : Nat) :
    List (Nat × Nat) :=
  (shuffled_capsules.map (fun ci =>
    (slice shuffled_rooms (ci * factor) ((ci + 1) * factor)).map
      (fun ri => (ci, ri)))).flatten

/-- `CapsulesManager.allocate_rooms_randomly(room_indices)`
(`src/capsule.py`): shuffle the room indices and the capsule indices,
assign each capsule index `ci` the slice
`shuffled_rooms[ci*factor : (ci+1)*factor]`, then re-shuffle the capsule
sequence and assign the remaining rooms one-to-one to its leading
entries.  Division by `capsules_count = 0` raises `ZeroDivisionError`.
Consumes three oracle calls. -/
def allocate_rooms_randomly (cfg : Config) (R : Nat → List Nat) (k : Nat)
    (room_indices : List Nat) (m : Mapping) : Except PyError (Mapping × Nat) :=
  let shuffled_rooms := shuffle_list (R k) room_indices
  let shuffled_capsules := shuffle_list (R (k + 1)) (List.range cfg.capsules_count)
  if cfg.capsules_count = 0 then
    .error (.zeroDivisionError "integer division or modulo by zero")
  else
    let factor := shuffled_rooms.length / cfg.capsules_count
    match assignRooms cfg.rooms (blockPairs shuffled_capsules shuffled_rooms factor) m with
    | .error e => .error e
    | .ok m1 =>
      let shuffled_capsules2 := shuffle_list (R (k + 2)) shuffled_capsules
      match assignRooms cfg.rooms
          (shuffled_capsules2.zip (shuffled_rooms.drop (factor * cfg.capsules_count))) m1 with
      | .error e => .error e
      | .ok m2 => .ok (m2, k + 3)

/-- `CapsulesManager.update_capsules` (`src/capsule.py`): rebuild every
capsule from the mapping. -/
def update_capsules (cfg : Config) (m : Mapping) (caps : List Capsule) :
    List Capsule :=
  caps.map (Capsule.update cfg.rc m)

/-- `CapsulesManager.commit_action`, iterated over a list of actions as in
the `for action in actions` loop of `fix_capsules`: apply each action to
the mapping and rebuild the capsules after each one. -/
def commitActions (cfg : Config) : List Action → MState → MState
  | [], st => st
  | a :: rest, st =>
    let m' := a.doAction st.mapping
    commitActions cfg rest ⟨m', update_capsules cfg m' st.capsules⟩

/-- Replace (by capsule index) the scanned capsule with its mutated
version — the shallow image of the in-place mutation that
`apply_constraints` performs on a capsule object held in
`self.capsules`. -/
def replaceCap (caps : List Capsule) (c' : Capsule) : List Capsule :=
  caps.map (fun x => if x.index = c'.index then c' else x)

/-- The capsule scan of `fix_capsules`: walk the shuffled capsule list,
calling `apply_constraints` (which mutates each visited capsule) until
the first invalid capsule; return the updated capsule list, the first
invalid capsule's suggested actions (if any), and the oracle counter. -/
def fixScan (cfg : Config) (R : Nat → List Nat) (k : Nat)
    (caps : List Capsule) :
    List Capsule → Except PyError (List Capsule × Option (List Action) × Nat)
  | [] => .ok (caps, none, k)
  | c :: rest =>
    match Capsule.apply_constraints R k cfg.global_constraints c with
    | (c', .error e) =>
      -- the mutation happened before the raise, but the exception aborts the run
      let _ := c'
      .error e
    | (c', .ok ((true, _), k')) => fixScan cfg R k' (replaceCap caps c') rest
    | (c', .ok ((false, state), k')) => .ok (replaceCap caps c', some state, k')

/-- The tail of `fix_capsules` after the capsule scan (and the committing
of the first invalid capsule's actions): list the orphaned rooms
(`mapping[room] is None`, in dict order) and, when any exist, randomly
re-allocate them and rebuild the capsules, forcing `need_fixing`. -/
def fix_orphans (cfg : Config) (R : Nat → List Nat) (need_fixing : Bool)
    (k : Nat) (st : MState) : Except PyError (Bool × MState × Nat) :=
  if (st.mapping.filterMap
      (fun p => if p.2 = none then some p.1.index else none)).isEmpty then
    .ok (need_fixing, st, k)
  else
    match allocate_rooms_randomly cfg R k
        (st.mapping.filterMap
          (fun p => if p.2 = none then some p.1.index else none))
        st.mapping with
    | .error e => .error e
    | .ok (m2, k2) => .ok (true, ⟨m2, update_capsules cfg m2 st.capsules⟩, k2)

/-- `CapsulesManager.fix_capsules` (`src/capsule.py`): scan the capsules
in a shuffled order, repair the first invalid one by committing all its
suggested actions, then randomly re-allocate any orphaned rooms.
Returns `need_fixing`. -/
def fix_capsules (cfg : Config) (R : Nat → List Nat) (k : Nat) (st : MState) :
    Except PyError (Bool × MState × Nat) :=
  match fixScan cfg R (k + 1) st.capsules (shuffle_list (R k) st.capsules) with
  | .error e => .error e
  | .ok (caps1, none, k1) => fix_orphans cfg R false k1 ⟨st.mapping, caps1⟩
  | .ok (caps1, some actions, k1) =>
    fix_orphans cfg R true k1 (commitActions cfg actions ⟨st.mapping, caps1⟩)

/-- The start of `build_capsules`: reuse the manager's current mapping
when an existing room mapping was supplied (the supplied dict is aliased
into `self.room_mapping`, so after the first try this is the mapping as
left by the previous try), otherwise `randomize_room_mapping` — a full
random allocation of `self.rooms.keys()`. -/
def build_start (cfg : Config) (R : Nat → List Nat) (k : Nat)
    (use_existing : Bool) (st : MState) : Except PyError (Mapping × Nat) :=
  if use_existing then .ok (st.mapping, k)
  else allocate_rooms_randomly cfg R k (cfg.rooms.map Room.index) st.mapping

/-- The `for fix_count in range(self.max_fixes_count)` loop of
`build_capsules`: run repair rounds until one reports nothing to fix
(success, `True`) or the budget is exhausted (`False`). -/
def fixRounds (cfg : Config) (R : Nat → List Nat) :
    Nat → Nat → MState → Except PyError (Bool × MState × Nat)
  | 0, k, st => .ok (false, st, k)
  | f + 1, k, st =>
    match fix_capsules cfg R k st with
    | .error e => .error e
    | .ok (false, st', k') => .ok (true, st', k')
    | .ok (true, st', k') => fixRounds cfg R f k' st'

/-- `CapsulesManager.build_capsules` (`src/capsule.py`): install the
starting mapping, build the capsules `0 .. capsules_count - 1` from it,
then run up to `max_fixes_count` repair rounds.  With
`max_fixes_count = 0` the trailing `if needed_fixing` reads an unbound
local and raises `NameError`, as in Python. -/
def build_capsules (cfg : Config) (R : Nat → List Nat) (k : Nat)
    (use_existing : Bool) (st : MState) :
    Except PyError (Bool × MState × Nat) :=
  match build_start cfg R k use_existing st with
  | .error e => .error e
  | .ok (m, k') =>
    let caps := (List.range cfg.capsules_count).map
      (fun i => Capsule.update cfg.rc m ⟨i, [], []⟩)
    if cfg.max_fixes_count = 0 then
      .error (.nameError "name 'needed_fixing' is not defined")
    else
      fixRounds cfg R cfg.max_fixes_count k' ⟨m, caps⟩

/-- The `for try_count in range(self.max_tries_count)` loop of
`CapsulesManager.__init__`: run build attempts until one succeeds; when
all tries are consumed, raise `RuntimeError("Reached maximum try
attempts")`.  In existing-mapping mode each attempt continues from the
state (the aliased, possibly mutated mapping) left by the previous
attempt. -/
def init_loop (cfg : Config) (R : Nat → List Nat) (use_existing : Bool) :
    Nat → Nat → MState → Except PyError (MState × Nat)
  | 0, _, _ => .error (.runtimeError "Reached maximum try attempts")
  | t + 1, k, st =>
    match build_capsules cfg R k use_existing st with
    | .error e => .error e
    | .ok (true, st', k') => .ok (st', k')
    | .ok (false, st', k') => init_loop cfg R use_existing t k' st'

/-- The manager state on entry to the retry loop: the all-`None` mapping
`{room: None for room in self.rooms.values()}`, except that in
existing-mapping mode the caller-supplied dict is installed (by
reference) by the first `build_capsules` call before anything reads the
mapping, so the loop effectively starts from it. -/
def initState (cfg : Config) (existing : Option Mapping) : MState :=
  match existing with
  | none => ⟨cfg.rooms.map (fun r => (r, none)), []⟩
  | some m => ⟨m, []⟩

/-- `CapsulesManager.__init__` (`src/capsule.py`): set up the initial
mapping and run the retry loop (in existing-mapping mode when an existing
room mapping was supplied). -/
def CapsulesManager_init (cfg : Config) (existing : Option Mapping)
    (R : Nat → List Nat) (k : Nat) : Except PyError (MState × Nat) :=
  init_loop cfg R existing.isSome cfg.max_tries_count k (initState cfg existing)

/-- The in-place extension of a capsule's constraint list performed by
`apply_constraints` (`self.constraints += global_constraints`). -/
def withGlobals (global_constraints : List Constraint) (cap : Capsule) : Capsule :=
  { cap with constraints := cap.constraints ++ global_constraints }

/-- The run in which every one of `tries` successive build attempts
completes normally and reports failure (`False`): the retry loop's
exhaustion scenario. -/
def AllFail (cfg : Config) (R : Nat → List Nat) (use_existing : Bool) :
    Nat → Nat → MState → Prop
  | 0, _, _ => True
  | t + 1, k, st =>
    ∃ st' k', build_capsules cfg R k use_existing st = .ok (false, st', k') ∧
      AllFail cfg R use_existing t k' st'

/-- The run in which some build attempt (within `tries`) succeeds after
the previous attempts completed normally and reported failure. -/
def SucceedsWithin (cfg : Config) (R : Nat → List Nat) (use_existing : Bool) :
    Nat → Nat → MState → Prop
  | 0, _, _ => False
  | t + 1, k, st =>
    (∃ st' k', build_capsules cfg R k use_existing st = .ok (true, st', k')) ∨
    (∃ st' k', build_capsules cfg R k use_existing st = .ok (false, st', k') ∧
      SucceedsWithin cfg R use_existing t k' st')

/-- Mapping part of the run invariant: every input room is a key of the
shared mapping, and every assigned value is a capsule index in
`[0, capsules_count)`. -/
def MapInv (cfg : Config) (m : Mapping) : Prop :=
  (∀ r ∈ cfg.rooms, ∃ v, mapLookup m r = some v) ∧
  (∀ p ∈ m, ∀ i, p.2 = some i → i < cfg.capsules_count)

/-- Full state invariant: the mapping invariant plus every capsule index
in range. -/
def InvS (cfg : Config) (st : MState) : Prop :=
  MapInv cfg st.mapping ∧ ∀ cap ∈ st.capsules, cap.index < cfg.capsules_count

instance : IsTotal Constraint (fun a b => a.order ≤ b.order) :=
  ⟨fun a b => le_total a.order b.order⟩

instance : IsTrans Constraint (fun a b => a.order ≤ b.order) :=
  ⟨fun _ _ _ h1 h2 => le_trans h1 h2⟩

/-! ## Basic lemmas about the shuffle model and the Counter embedding -/

theorem filterMap_get?_range (l : List α) :
    (List.range l.length).filterMap l.get? = l := by
  induction l with
  | nil => rfl
  | cons a t ih =>
    rw [List.length_cons, List.range_succ_eq_map, List.filterMap_cons,
      List.filterMap_map]
    simp only [List.get?_cons_zero]
    have : (fun i => (a :: t).get? (Nat.succ i)) = t.get? := by
      funext i; simp
    simp only [Function.comp_def, List.get?_cons_succ]
    rw [ih]

theorem shuffle_list_perm (p : List Nat) (l : List α) :
    (shuffle_list p l).Perm l := by
  unfold shuffle_list
  split
  · rename_i h
    have := h.filterMap l.get?
    rwa [filterMap_get?_range] at this
  · exact List.Perm.refl l

theorem shuffle_list_nil (p : List Nat) : shuffle_list p ([] : List α) = [] :=
  (shuffle_list_perm p []).eq_nil

theorem shuffle_list_singleton (p : List Nat) (a : α) :
    shuffle_list p [a] = [a] := by
  have h := shuffle_list_perm p [a]
  cases hres : shuffle_list p [a] with
  | nil => rw [hres] at h; exact absurd h.symm (by simp)
  | cons b t =>
    rw [hres] at h
    have hb : b ∈ [a] := h.subset (by simp)
    have hlen : t.length = 0 := by
      have := h.length_eq; simpa using this
    simp only [List.mem_singleton] at hb
    rw [hb, List.eq_nil_of_length_eq_zero hlen]

theorem perm_pair_elim {p : List Nat} {a b : Nat} (hab : a ≠ b)
    (h : p.Perm [a, b]) : p = [a, b] ∨ p = [b, a] := by
  match p, h.length_eq with
  | [x, y], _ =>
    have hx : x ∈ [a, b] := h.subset (by simp)
    have hy : y ∈ [a, b] := h.subset (by simp)
    have hcount := h.count_eq a
    simp only [List.mem_cons, List.mem_singleton, List.not_mem_nil, or_false] at hx hy
    rcases hx with hx | hx <;> rcases hy with hy | hy
    · exfalso
      subst hx hy
      simp [List.count_cons, hab.symm] at hcount
    · left; rw [hx, hy]
    · right; rw [hx, hy]
    · exfalso
      subst hx hy
      simp [List.count_cons, hab.symm] at hcount

theorem shuffle_list_pair (p : List Nat) (a b : α) :
    shuffle_list p [a, b] = [a, b] ∨ shuffle_list p [a, b] = [b, a] := by
  unfold shuffle_list
  split
  · rename_i h
    have h01 : List.range (List.length [a, b]) = [0, 1] := rfl
    rw [h01] at h
    rcases perm_pair_elim (by decide) h with hp | hp <;> rw [hp]
    · left; rfl
    · right; rfl
  · left; rfl

theorem mem_counterKeys_aux (l : List Nat) :
    ∀ (acc : List Nat) (x : Nat),
      (x ∈ l.foldl (fun acc a => if a ∈ acc then acc else acc ++ [a]) acc ↔
        x ∈ acc ∨ x ∈ l) := by
  induction l with
  | nil => intro acc x; simp
  | cons a t ih =>
    intro acc x
    rw [List.foldl_cons, ih]
    by_cases ha : a ∈ acc
    · simp only [if_pos ha, List.mem_cons]
      constructor
      · rintro (hx | hx)
        · exact Or.inl hx
        · exact Or.inr (Or.inr hx)
      · rintro (hx | hx | hx)
        · exact Or.inl hx
        · exact Or.inl (hx ▸ ha)
        · exact Or.inr hx
    · simp only [if_neg ha, List.mem_append, List.mem_singleton, List.mem_cons]
      tauto

theorem mem_counterKeys (l : List Nat) (x : Nat) :
    x ∈ counterKeys l ↔ x ∈ l := by
  unfold counterKeys
  rw [mem_counterKeys_aux]
  simp

theorem mem_mostCommon (l : List Nat) (x : Nat) :
    x ∈ mostCommon l ↔ x ∈ l := by
  unfold mostCommon
  rw [(List.perm_insertionSort _ _).mem_iff, mem_counterKeys]

theorem mostCommon_length (l : List Nat) :
    (mostCommon l).length = (counterKeys l).length :=
  (List.perm_insertionSort _ _).length_eq

theorem getLast?_rel_of_pairwise (r : Nat → Nat → Prop)
    (hrefl : ∀ x, r x x) :
    ∀ (l : List Nat), l.Pairwise r → ∀ x ∈ l, ∀ y, l.getLast? = some y → r x y := by
  intro l
  induction l with
  | nil => intro _ x hx; exact absurd hx (List.not_mem_nil x)
  | cons a t ih =>
    intro hp x hx y hy
    rcases List.pairwise_cons.mp hp with ⟨hhead, htail⟩
    cases t with
    | nil =>
      simp only [List.getLast?_singleton, Option.some.injEq] at hy
      simp only [List.mem_singleton] at hx
      rw [hx, ← hy]; exact hrefl a
    | cons b t' =>
      rw [List.getLast?_cons_cons] at hy
      have hymem : y ∈ b :: t' := by
        have := List.getLast?_eq_getLast (b :: t') (by simp)
        rw [this] at hy
        injection hy with hy'
        rw [← hy']
        exact List.getLast_mem _
      rcases List.mem_cons.mp hx with hxa | hxt
      · rw [hxa]; exact hhead y hymem
      · exact ih htail x hxt y hy

theorem mostCommon_sorted (l : List Nat) :
    (mostCommon l).Pairwise (fun g1 g2 => l.count g2 ≤ l.count g1) := by
  haveI : IsTotal Nat (fun g1 g2 => l.count g2 ≤ l.count g1) :=
    ⟨fun a b => le_total (l.count b) (l.count a)⟩
  haveI : IsTrans Nat (fun g1 g2 => l.count g2 ≤ l.count g1) :=
    ⟨fun _ _ _ h1 h2 => le_trans h2 h1⟩
  exact List.sorted_insertionSort _ _

theorem getLastD_eq_getLast?_getD (l : List Nat) (d : Nat) :
    l.getLastD d = (l.getLast?).getD d := by
  induction l generalizing d with
  | nil => rfl
  | cons a t ih =>
    rw [List.getLastD_cons, ih]
    cases t with
    | nil => rfl
    | cons b t' =>
      rw [List.getLast?_cons_cons,
        List.getLast?_eq_getLast (b :: t') (by simp)]
      rfl

/-- The gender picked by `most_common()[-1]` has minimal multiplicity
among the genders present. -/
theorem mostCommon_getLastD_min (l : List Nat) (hne : counterKeys l ≠ []) :
    ((mostCommon l).getLastD 0 ∈ l) ∧
      ∀ g' ∈ l, l.count ((mostCommon l).getLastD 0) ≤ l.count g' := by
  have hmcne : mostCommon l ≠ [] := by
    intro h
    apply hne
    have := mostCommon_length l
    rw [h] at this
    exact List.eq_nil_of_length_eq_zero this.symm
  have hlast : (mostCommon l).getLast? = some ((mostCommon l).getLastD 0) := by
    rw [getLastD_eq_getLast?_getD, List.getLast?_eq_getLast _ hmcne]
    rfl
  have hmem : (mostCommon l).getLastD 0 ∈ mostCommon l := by
    rw [getLastD_eq_getLast?_getD, List.getLast?_eq_getLast _ hmcne]
    exact List.getLast_mem _
  constructor
  · exact (mem_mostCommon l _).mp hmem
  · intro g' hg'
    exact getLast?_rel_of_pairwise (fun g1 g2 => l.count g2 ≤ l.count g1)
      (fun x => le_refl _) (mostCommon l)
      (mostCommon_sorted l) g' ((mem_mostCommon l g').mpr hg') _ hlast

/-! ## C5: the Connecting constraint -/

/-- C5.  The `Connecting(a, b)` constraint reports invalid exactly when
one of the two paired rooms is a member (logical XOR), in which case the
suggested actions are exactly one `Add` of the absent paired room into
this capsule; otherwise it reports valid with no actions (and in all
cases consumes no randomness). -/
theorem C5_connecting_xor_add_absent (R : Nat → List Nat) (k : Nat)
    (capsule_index : Nat) (room1 room2 : Room) (rooms : List Room) :
    (Constraint.ConnectingConstraint room1 room2).is_valid R k capsule_index rooms =
      if Xor' (room1 ∈ rooms) (room2 ∈ rooms) then
        .ok ((false, [Action.Add capsule_index
          (if room1 ∈ rooms then room2 else room1)]), k)
      else
        .ok ((true, []), k) := by
  simp only [Constraint.is_valid]
  by_cases h1 : room1 ∈ rooms <;> by_cases h2 : room2 ∈ rooms <;>
    simp [h1, h2, Xor']

/-! ## C10: the Gender constraint on an empty room set -/

theorem checkConstraints_gender_empty (R : Nat → List Nat) (k : Nat)
    (capsule_index : Nat) :
    ∀ (cs : List Constraint), Constraint.GenderConstraint ∈ cs →
      checkConstraints R k capsule_index [] cs =
        .error (.valueError (genderErrorMessage 0)) := by
  intro cs
  induction cs generalizing k with
  | nil => intro h; exact absurd h (List.not_mem_nil _)
  | cons c rest ih =>
    intro hmem
    cases c with
    | GenderConstraint => rfl
    | RoomCountConstraint m =>
      have : Constraint.GenderConstraint ∈ rest := by
        rcases List.mem_cons.mp hmem with h | h
        · exact absurd h (by simp)
        · exact h
      simpa [checkConstraints, Constraint.is_valid] using ih k this
    | ConnectingConstraint r1 r2 =>
      have : Constraint.GenderConstraint ∈ rest := by
        rcases List.mem_cons.mp hmem with h | h
        · exact absurd h (by simp)
        · exact h
      simpa [checkConstraints, Constraint.is_valid] using ih k this

/-- C10.  Evaluating the Gender constraint on an empty room set raises
the same fatal `ValueError` as the more-than-two-genders case (here with
message `"Cannot have 0 genders."`) rather than reporting valid; hence a
capsule that carries a Gender constraint while having no member rooms
always raises this fatal error from its self-check, whatever its other
constraints (all of which are valid on an empty room set). -/
theorem C10_gender_empty_fatal (R : Nat → List Nat) (k : Nat) (cap : Capsule)
    (h1 : Constraint.GenderConstraint ∈ cap.constraints)
    (h2 : cap.rooms = []) :
    cap.is_valid R k = .error (.valueError (genderErrorMessage 0)) := by
  unfold Capsule.is_valid
  rw [h2]
  apply checkConstraints_gender_empty
  unfold sortConstraints
  exact (List.perm_insertionSort _ _).mem_iff.mpr h1

/-- Witness for C10 at a concrete capsule. -/
theorem C10_witness :
    Capsule.is_valid (fun _ => []) 0
        ⟨0, [], [Constraint.RoomCountConstraint 3, Constraint.GenderConstraint]⟩ =
      .error (.valueError (genderErrorMessage 0)) :=
  C10_gender_empty_fatal (fun _ => []) 0 _ (by decide) rfl

/-! ## C4: the Gender constraint's three cases -/

/-- C4.  For a capsule's room set: with exactly one distinct gender the
Gender constraint reports valid with no actions; with exactly two
distinct genders it reports invalid with exactly one `Reduce` for every
room of a minority gender `g` (a gender, present among the rooms, whose
multiplicity is minimal — on a count tie either gender qualifies and the
code picks one of them); with `n > 2` distinct genders it raises the
fatal `ValueError` (`"Cannot have n genders."`) instead of returning a
repair suggestion.  `counterKeys (rooms.map Room.gender)` is the list of
distinct genders present. -/
theorem C4_gender_cases (R : Nat → List Nat) (k : Nat) (capsule_index : Nat)
    (rooms : List Room) :
    ((counterKeys (rooms.map Room.gender)).length = 1 →
      Constraint.GenderConstraint.is_valid R k capsule_index rooms =
        .ok ((true, []), k)) ∧
    ((counterKeys (rooms.map Room.gender)).length = 2 →
      ∃ g, g ∈ rooms.map Room.gender ∧
        (∀ g' ∈ rooms.map Room.gender,
          (rooms.map Room.gender).count g ≤ (rooms.map Room.gender).count g') ∧
        Constraint.GenderConstraint.is_valid R k capsule_index rooms =
          .ok ((false,
            (rooms.filter (fun r => r.gender = g)).map
              (Action.Reduce capsule_index)), k)) ∧
    (2 < (counterKeys (rooms.map Room.gender)).length →
      Constraint.GenderConstraint.is_valid R k capsule_index rooms =
        .error (.valueError
          (genderErrorMessage (counterKeys (rooms.map Room.gender)).length))) := by
  refine ⟨?_, ?_, ?_⟩
  · intro h1
    simp [Constraint.is_valid, h1]
  · intro h2
    refine ⟨(mostCommon (rooms.map Room.gender)).getLastD 0, ?_, ?_, ?_⟩
    · exact (mostCommon_getLastD_min _ (by intro h; rw [h] at h2; simp at h2)).1
    · exact (mostCommon_getLastD_min _ (by intro h; rw [h] at h2; simp at h2)).2
    · simp [Constraint.is_valid, h2]
  · intro h3
    have hne1 : (counterKeys (rooms.map Room.gender)).length ≠ 1 := by omega
    have hne2 : (counterKeys (rooms.map Room.gender)).length ≠ 2 := by omega
    simp [Constraint.is_valid, hne1, hne2]

/-- Witness for C4 at a concrete two-gender room set: rooms with genders
`[0, 0, 1]` — the minority gender is `1` and the single suggested action
unassigns the one room carrying it. -/
theorem C4_witness :
    ∃ g, g ∈ ([⟨1, 0⟩, ⟨2, 0⟩, ⟨3, 1⟩] : List Room).map Room.gender ∧
      (∀ g' ∈ ([⟨1, 0⟩, ⟨2, 0⟩, ⟨3, 1⟩] : List Room).map Room.gender,
        (([⟨1, 0⟩, ⟨2, 0⟩, ⟨3, 1⟩] : List Room).map Room.gender).count g ≤
          (([⟨1, 0⟩, ⟨2, 0⟩, ⟨3, 1⟩] : List Room).map Room.gender).count g') ∧
      Constraint.GenderConstraint.is_valid (fun _ => []) 0 0
          [⟨1, 0⟩, ⟨2, 0⟩, ⟨3, 1⟩] =
        .ok ((false,
          (([⟨1, 0⟩, ⟨2, 0⟩, ⟨3, 1⟩] : List Room).filter
            (fun r => r.gender = g)).map (Action.Reduce 0)), 0) :=
  (C4_gender_cases (fun _ => []) 0 0 [⟨1, 0⟩, ⟨2, 0⟩, ⟨3, 1⟩]).2.1 (by decide)

/-! ## C3: evaluation order and short-circuiting of a capsule self-check -/

/-- C3 counterexample.  The claim says every Gender constraint is
evaluated before every RoomCount constraint, but
`RoomCountConstraint(4).order = 16 < 20 = GenderConstraint.order`, so the
stable ascending sort puts `RoomCountConstraint 4` first; on a concrete
capsule of five rooms violating both constraints the self-check returns
the RoomCount repair (a single `Reduce`) and never reaches the Gender
constraint (whose repair, evaluated directly, is two `Reduce`s). -/
theorem C3_counterexample :
    sortConstraints [Constraint.GenderConstraint, Constraint.RoomCountConstraint 4] =
      [Constraint.RoomCountConstraint 4, Constraint.GenderConstraint] ∧
    (Constraint.RoomCountConstraint 4).order < Constraint.GenderConstraint.order ∧
    Capsule.is_valid (fun _ => []) 0
        ⟨0, [⟨1, 0⟩, ⟨2, 0⟩, ⟨3, 0⟩, ⟨4, 1⟩, ⟨5, 1⟩],
          [Constraint.GenderConstraint, Constraint.RoomCountConstraint 4]⟩ =
      .ok ((false, [Action.Reduce 0 ⟨1, 0⟩]), 1) ∧
    Constraint.GenderConstraint.is_valid (fun _ => []) 0 0
        [⟨1, 0⟩, ⟨2, 0⟩, ⟨3, 0⟩, ⟨4, 1⟩, ⟨5, 1⟩] =
      .ok ((false, [Action.Reduce 0 ⟨4, 1⟩, Action.Reduce 0 ⟨5, 1⟩]), 0) :=
  ⟨rfl, by decide, rfl, rfl⟩

/-- The short-circuit lemma: when every constraint of `pre` evaluates
valid (each such evaluation returns `(True, [])` and consumes no
randomness) and `c` evaluates invalid, the check of `pre ++ c :: post`
returns `c`'s suggested actions and is independent of `post` — the later
constraints are not evaluated. -/
theorem checkConstraints_shortCircuit (R : Nat → List Nat) (k : Nat)
    (capsule_index : Nat) (rooms : List Room)
    (pre : List Constraint) (c : Constraint) (post : List Constraint)
    (state : List Action) (k' : Nat)
    (hpre : ∀ c' ∈ pre, c'.is_valid R k capsule_index rooms = .ok ((true, []), k))
    (hc : c.is_valid R k capsule_index rooms = .ok ((false, state), k')) :
    checkConstraints R k capsule_index rooms (pre ++ c :: post) =
      .ok ((false, state), k') := by
  induction pre with
  | nil => simp [checkConstraints, hc]
  | cons c0 rest ih =>
    have h0 := hpre c0 (by simp)
    simp only [List.cons_append, checkConstraints, h0]
    exact ih (fun c' hc' => hpre c' (by simp [hc']))

/-- C3 amended.  Within one capsule's self-check the constraints are
evaluated in ascending `order` value by a stable sort (the evaluated
sequence is sorted by `order` and is a permutation of the capsule's
constraint list), where `Connecting.order = 10 < 20 = Gender.order` —
so every Connecting constraint is evaluated before every Gender
constraint — while `RoomCount(max).order = (max - 2) * 8` depends on the
parameter: a RoomCount constraint precedes every Gender constraint iff
`max ≤ 4` and precedes every Connecting constraint iff `max ≤ 3`.
Evaluation short-circuits: the first violated constraint's suggested
actions are returned immediately, independently of the constraints after
it. -/
theorem C3_amended_order_and_shortCircuit :
    (∀ cs : List Constraint,
      (sortConstraints cs).Pairwise (fun a b => a.order ≤ b.order) ∧
      (sortConstraints cs).Perm cs) ∧
    (∀ r1 r2 : Room,
      (Constraint.ConnectingConstraint r1 r2).order <
        Constraint.GenderConstraint.order) ∧
    (∀ m : Nat,
      ((Constraint.RoomCountConstraint m).order <
          Constraint.GenderConstraint.order ↔ m ≤ 4) ∧
      (∀ r1 r2 : Room,
        (Constraint.RoomCountConstraint m).order <
          (Constraint.ConnectingConstraint r1 r2).order ↔ m ≤ 3)) ∧
    (∀ (R : Nat → List Nat) (k capsule_index : Nat) (rooms : List Room)
      (pre : List Constraint) (c : Constraint) (post : List Constraint)
      (state : List Action) (k' : Nat),
      (∀ c' ∈ pre, c'.is_valid R k capsule_index rooms = .ok ((true, []), k)) →
      c.is_valid R k capsule_index rooms = .ok ((false, state), k') →
      checkConstraints R k capsule_index rooms (pre ++ c :: post) =
        .ok ((false, state), k')) := by
  refine ⟨?_, ?_, ?_, ?_⟩
  · intro cs
    exact ⟨List.sorted_insertionSort _ cs, List.perm_insertionSort _ cs⟩
  · intro r1 r2
    simp only [Constraint.order]
    omega
  · intro m
    constructor
    · simp only [Constraint.order]
      omega
    · intro r1 r2
      simp only [Constraint.order]
      omega
  · intro R k capsule_index rooms pre c post state k' hpre hc
    exact checkConstraints_shortCircuit R k capsule_index rooms pre c post
      state k' hpre hc

/-- Witness for C3 amended: the short-circuit conjunct applied at a
concrete input (a valid Connecting constraint followed by a violated
Gender constraint, with a RoomCount constraint after it that is never
evaluated). -/
theorem C3_amended_witness :
    checkConstraints (fun _ => []) 0 0 [⟨1, 0⟩, ⟨2, 1⟩]
        ([Constraint.ConnectingConstraint ⟨1, 0⟩ ⟨2, 1⟩] ++
          Constraint.GenderConstraint :: [Constraint.RoomCountConstraint 1]) =
      .ok ((false, [Action.Reduce 0 ⟨2, 1⟩]), 0) :=
  C3_amended_order_and_shortCircuit.2.2.2 (fun _ => []) 0 0 [⟨1, 0⟩, ⟨2, 1⟩]
    [Constraint.ConnectingConstraint ⟨1, 0⟩ ⟨2, 1⟩]
    Constraint.GenderConstraint [Constraint.RoomCountConstraint 1]
    [Action.Reduce 0 ⟨2, 1⟩] 0
    (by
      intro c' hc'
      simp only [List.mem_singleton] at hc'
      rw [hc']
      rfl)
    rfl

/-! ## C8: a repair round on an already-valid state -/

theorem fixScan_all_valid (cfg : Config) (R : Nat → List Nat)
    (order : List Capsule) :
    ∀ (k : Nat) (caps : List Capsule),
      (∀ cap ∈ order, ∀ k',
        (withGlobals cfg.global_constraints cap).is_valid R k' =
          .ok ((true, []), k')) →
      fixScan cfg R k caps order =
        .ok (order.foldl
          (fun cs c => replaceCap cs (withGlobals cfg.global_constraints c))
          caps, none, k) := by
  induction order with
  | nil => intro k caps _; rfl
  | cons c rest ih =>
    intro k caps hvalid
    have hc := hvalid c (by simp) k
    simp only [fixScan, Capsule.apply_constraints]
    rw [show ({ c with constraints := c.constraints ++ cfg.global_constraints } : Capsule) =
      withGlobals cfg.global_constraints c from rfl]
    rw [hc]
    simp only [List.foldl_cons]
    exact ih k _ (fun cap hcap => hvalid cap (by simp [hcap]))

theorem foldl_replaceCap_covered (cfg : Config) :
    ∀ (order : List Capsule) (caps0 : List Capsule) (done : List Capsule),
      (∀ x ∈ caps0, x ∈ done ∨ x ∈ order) →
      (∀ c ∈ order, c ∈ caps0) →
      (∀ x ∈ caps0, ∀ y ∈ caps0, x.index = y.index → x = y) →
      order.foldl
        (fun cs c => replaceCap cs (withGlobals cfg.global_constraints c))
        (caps0.map (fun x => if x ∈ done then withGlobals cfg.global_constraints x else x)) =
      caps0.map (withGlobals cfg.global_constraints) := by
  intro order
  induction order with
  | nil =>
    intro caps0 done hcover _ _
    simp only [List.foldl_nil]
    apply List.map_congr_left
    intro x hx
    rcases hcover x hx with h | h
    · simp [h]
    · exact absurd h (List.not_mem_nil x)
  | cons c rest ih =>
    intro caps0 done hcover hmem hinj
    simp only [List.foldl_cons]
    have hstep :
        replaceCap
          (caps0.map (fun x => if x ∈ done then withGlobals cfg.global_constraints x else x))
          (withGlobals cfg.global_constraints c) =
        caps0.map (fun x => if x ∈ c :: done then withGlobals cfg.global_constraints x else x) := by
      unfold replaceCap
      rw [List.map_map]
      apply List.map_congr_left
      intro x hx
      have hidx : (if x ∈ done then withGlobals cfg.global_constraints x else x).index = x.index := by
        split <;> rfl
      simp only [Function.comp_apply, hidx]
      by_cases hxc : x.index = (withGlobals cfg.global_constraints c).index
      · have hxc' : x.index = c.index := hxc
        have : x = c := hinj x hx c (hmem c (by simp)) hxc'
        subst this
        simp [hxc]
      · have hxc2 : ¬ x = c := fun h => hxc (by rw [h]; rfl)
        simp only [if_neg hxc]
        by_cases hd : x ∈ done
        · rw [if_pos hd, if_pos (List.mem_cons_of_mem c hd)]
        · rw [if_neg hd, if_neg (by
            intro hcd
            rcases List.mem_cons.mp hcd with h' | h'
            · exact hxc2 h'
            · exact hd h')]
    rw [hstep]
    exact ih caps0 (c :: done)
      (fun x hx => by
        rcases hcover x hx with h | h
        · exact Or.inl (List.mem_cons_of_mem c h)
        · rcases List.mem_cons.mp h with h' | h'
          · exact Or.inl (h' ▸ List.mem_cons_self c done)
          · exact Or.inr h')
      (fun c' hc' => hmem c' (List.mem_cons_of_mem c hc'))
      hinj

theorem foldl_replaceCap_perm (cfg : Config) (order caps0 : List Capsule)
    (hperm : order.Perm caps0)
    (hinj : ∀ x ∈ caps0, ∀ y ∈ caps0, x.index = y.index → x = y) :
    order.foldl
      (fun cs c => replaceCap cs (withGlobals cfg.global_constraints c))
      caps0 = caps0.map (withGlobals cfg.global_constraints) := by
  have h := foldl_replaceCap_covered cfg order caps0 []
    (fun x hx => Or.inr (hperm.mem_iff.mpr hx))
    (fun c hc => hperm.subset hc)
    hinj
  simpa using h

/-- C8 amended.  Invoking one repair round (`fix_capsules`) on a state
whose capsules (with distinct indices) all already satisfy their own and
the global constraints and whose mapping has no unassigned rooms returns
the no-fixing-needed result (`False`) and leaves the room mapping — and
hence every capsule's derived room list — unchanged; but the call is
*not* mutation-free: `apply_constraints` extends each capsule's
constraint list in place with the global constraints (they are only
dropped again at the next rebuild), so the capsule list comes back with
every capsule's constraints extended by `global_constraints`. -/
theorem C8_amended_valid_round (cfg : Config) (R : Nat → List Nat) (k : Nat)
    (st : MState)
    (hinj : ∀ x ∈ st.capsules, ∀ y ∈ st.capsules, x.index = y.index → x = y)
    (hvalid : ∀ cap ∈ st.capsules, ∀ k',
      (withGlobals cfg.global_constraints cap).is_valid R k' =
        .ok ((true, []), k'))
    (hfull : ∀ p ∈ st.mapping, p.2 ≠ none) :
    fix_capsules cfg R k st =
      .ok (false,
        ⟨st.mapping, st.capsules.map (withGlobals cfg.global_constraints)⟩,
        k + 1) := by
  unfold fix_capsules
  have hperm : (shuffle_list (R k) st.capsules).Perm st.capsules :=
    shuffle_list_perm _ _
  rw [fixScan_all_valid cfg R _ (k + 1) st.capsules
    (fun cap hcap => hvalid cap (hperm.subset hcap))]
  rw [foldl_replaceCap_perm cfg _ _ hperm hinj]
  have horph : st.mapping.filterMap
      (fun p => if p.2 = none then some p.1.index else none) = [] := by
    rw [List.filterMap_eq_nil_iff]
    intro p hp
    simp [hfull p hp]
  simp only [fix_orphans, horph, List.isEmpty_nil, if_pos]

/-- C8 counterexample.  On a state with one capsule holding one room, an
all-assigned mapping, and one global constraint `RoomCount(5)` (which the
capsule satisfies), the repair round reports no fixing needed — but it
mutates the capsule: the returned capsule's constraint list has grown
from `[]` to `[RoomCount 5]`, so the claim's "performs zero mutations:
... all derived capsule state are unchanged" is false. -/
theorem C8_counterexample :
    fix_capsules
        ⟨fun _ => [], [⟨1, 0⟩], 1, [Constraint.RoomCountConstraint 5], 1, 1⟩
        (fun _ => []) 0
        ⟨[(⟨1, 0⟩, some 0)], [⟨0, [⟨1, 0⟩], []⟩]⟩ =
      .ok (false,
        ⟨[(⟨1, 0⟩, some 0)],
          [⟨0, [⟨1, 0⟩], [Constraint.RoomCountConstraint 5]⟩]⟩, 1) ∧
    ([⟨0, [⟨1, 0⟩], [Constraint.RoomCountConstraint 5]⟩] : List Capsule) ≠
      [⟨0, [⟨1, 0⟩], []⟩] :=
  ⟨rfl, by decide⟩

/-- Witness for C8 amended at the same concrete valid state. -/
theorem C8_amended_witness :
    fix_capsules
        ⟨fun _ => [], [⟨1, 0⟩], 1, [Constraint.RoomCountConstraint 5], 1, 1⟩
        (fun _ => []) 0
        ⟨[(⟨1, 0⟩, some 0)], [⟨0, [⟨1, 0⟩], []⟩]⟩ =
      .ok (false,
        ⟨[(⟨1, 0⟩, some 0)],
          ([⟨0, [⟨1, 0⟩], []⟩] : List Capsule).map
            (withGlobals [Constraint.RoomCountConstraint 5])⟩, 1) :=
  C8_amended_valid_round
    ⟨fun _ => [], [⟨1, 0⟩], 1, [Constraint.RoomCountConstraint 5], 1, 1⟩
    (fun _ => []) 0 ⟨[(⟨1, 0⟩, some 0)], [⟨0, [⟨1, 0⟩], []⟩]⟩
    (by
      intro x hx y hy _
      simp only [List.mem_singleton] at hx hy
      rw [hx, hy])
    (by
      intro cap hcap k'
      simp only [List.mem_singleton] at hcap
      rw [hcap]
      rfl)
    (by
      intro p hp
      simp only [List.mem_singleton] at hp
      rw [hp]
      simp)

/-! ## C2: fatal exhaustion versus success of the retry loop -/

theorem init_loop_allFail_succeeds (cfg : Config) (R : Nat → List Nat)
    (use_existing : Bool) :
    ∀ (tries k : Nat) (st : MState),
      (AllFail cfg R use_existing tries k st →
        init_loop cfg R use_existing tries k st =
          .error (.runtimeError "Reached maximum try attempts")) ∧
      (SucceedsWithin cfg R use_existing tries k st →
        ∃ st' k', init_loop cfg R use_existing tries k st = .ok (st', k')) := by
  intro tries
  induction tries with
  | zero =>
    intro k st
    exact ⟨fun _ => rfl, fun h => absurd h (by simp [SucceedsWithin])⟩
  | succ t ih =>
    intro k st
    constructor
    · rintro ⟨st', k', hb, hrest⟩
      simp only [init_loop, hb]
      exact (ih k' st').1 hrest
    · rintro (⟨st', k', hb⟩ | ⟨st', k', hb, hrest⟩)
      · exact ⟨st', k', by simp only [init_loop, hb]⟩
      · rcases (ih k' st').2 hrest with ⟨st'', k'', hres⟩
        exact ⟨st'', k'', by simp only [init_loop, hb]; exact hres⟩

/-- C2.  If all `max_tries_count` build attempts complete normally
without a fix-budget success (`AllFail`), the constructor raises the
fatal `RuntimeError("Reached maximum try attempts")` to the caller;
conversely, when some attempt succeeds after the previous ones completed
normally and failed (`SucceedsWithin`) — in particular, whenever
recoverable single-constraint violations were repaired inside in-budget
repair rounds of those attempts — the constructor returns normally and
no error reaches the caller. -/
theorem C2_exhaustion_fatal_success_silent (cfg : Config)
    (existing : Option Mapping) (R : Nat → List Nat) (k : Nat) :
    (AllFail cfg R existing.isSome cfg.max_tries_count k
        (initState cfg existing) →
      CapsulesManager_init cfg existing R k =
        .error (.runtimeError "Reached maximum try attempts")) ∧
    (SucceedsWithin cfg R existing.isSome cfg.max_tries_count k
        (initState cfg existing) →
      ∃ st' k', CapsulesManager_init cfg existing R k = .ok (st', k')) := by
  unfold CapsulesManager_init
  exact init_loop_allFail_succeeds cfg R existing.isSome cfg.max_tries_count k
    (initState cfg existing)

/-- Witness for C2: the single build attempt of a concrete one-capsule,
two-room, `RoomCount(1)` run completes with failure, and the constructor
raises the fatal exhaustion error. -/
theorem C2_witness :
    CapsulesManager_init
        ⟨fun _ => [], [⟨1, 0⟩, ⟨2, 1⟩], 1, [Constraint.RoomCountConstraint 1], 1, 1⟩
        none (fun _ => []) 0 =
      .error (.runtimeError "Reached maximum try attempts") :=
  (C2_exhaustion_fatal_success_silent
      ⟨fun _ => [], [⟨1, 0⟩, ⟨2, 1⟩], 1, [Constraint.RoomCountConstraint 1], 1, 1⟩
      none (fun _ => []) 0).1
    ⟨⟨[(⟨1, 0⟩, some 0), (⟨2, 1⟩, some 0)],
        [⟨0, [⟨1, 0⟩, ⟨2, 1⟩], []⟩]⟩, 8, rfl, trivial⟩

/-! ## Dict and allocation lookup lemmas -/

theorem mapLookup_setMap (r : Room) (v : Option Nat) :
    ∀ (m : Mapping) (r' : Room),
      mapLookup (setMap m r v) r' = if r' = r then some v else mapLookup m r' := by
  intro m
  induction m with
  | nil =>
    intro r'
    by_cases h : r' = r
    · subst h; simp [setMap, mapLookup]
    · simp [setMap, mapLookup, h, Ne.symm h]
  | cons p t ih =>
    intro r'
    by_cases hp : p.1 = r
    · simp only [setMap, if_pos hp, mapLookup]
      by_cases h : r' = r
      · subst h; simp
      · rw [if_neg (Ne.symm h), if_neg h, if_neg (fun hq : p.1 = r' => h (hq ▸ hp ▸ rfl))]
    · simp only [setMap, if_neg hp, mapLookup]
      by_cases hq : p.1 = r'
      · have h : ¬ r' = r := fun he => hp (he ▸ hq)
        rw [if_pos hq, if_neg h, if_pos hq]
      · rw [if_neg hq, ih r', if_neg hq]

theorem findRoom_index {rooms : List Room} {ri : Nat} {r : Room}
    (h : findRoom rooms ri = some r) : r.index = ri := by
  have := List.find?_some h
  simpa using this

theorem assignRooms_lookup_untouched (rooms : List Room) :
    ∀ (pairs : List (Nat × Nat)) (m m' : Mapping) (r : Room),
      assignRooms rooms pairs m = .ok m' →
      (∀ cj rj, (cj, rj) ∈ pairs → findRoom rooms rj ≠ some r) →
      mapLookup m' r = mapLookup m r := by
  intro pairs
  induction pairs with
  | nil =>
    intro m m' r h _
    simp only [assignRooms] at h
    injection h with h
    rw [h]
  | cons pr rest ih =>
    intro m m' r h huntouched
    obtain ⟨cj, rj⟩ := pr
    simp only [assignRooms] at h
    cases hf : findRoom rooms rj with
    | none => rw [hf] at h; exact absurd h (by simp)
    | some r0 =>
      rw [hf] at h
      have hr0 : r0 ≠ r := fun he => huntouched cj rj (by simp) (he ▸ hf)
      rw [ih _ _ _ h (fun cj' rj' hm => huntouched cj' rj' (by simp [hm]))]
      rw [mapLookup_setMap, if_neg (Ne.symm hr0)]

theorem assignRooms_lookup_assigned (rooms : List Room) :
    ∀ (pairs : List (Nat × Nat)) (m m' : Mapping) (r : Room) (ci : Nat),
      assignRooms rooms pairs m = .ok m' →
      (∃ ri, (ci, ri) ∈ pairs ∧ findRoom rooms ri = some r) →
      (∀ cj rj, (cj, rj) ∈ pairs → findRoom rooms rj = some r → cj = ci) →
      mapLookup m' r = some (some ci) := by
  intro pairs
  induction pairs with
  | nil =>
    rintro m m' r ci _ ⟨ri, hmem, _⟩ _
    exact absurd hmem (List.not_mem_nil _)
  | cons pr rest ih =>
    rintro m m' r ci h ⟨ri, hmem, hfind⟩ huni
    obtain ⟨c0, r0⟩ := pr
    simp only [assignRooms] at h
    cases hf : findRoom rooms r0 with
    | none => rw [hf] at h; exact absurd h (by simp)
    | some rr =>
      rw [hf] at h
      by_cases hrest : ∃ ri', (ci, ri') ∈ rest ∧ findRoom rooms ri' = some r
      · exact ih _ _ _ _ h hrest
          (fun cj rj hm hfr => huni cj rj (List.mem_cons_of_mem _ hm) hfr)
      · rcases List.mem_cons.mp hmem with heq | hm
        · injection heq with h1 h2
          subst h1
          subst h2
          rw [hfind] at hf
          injection hf with hfr
          subst hfr
          have hnone : ∀ cj rj, (cj, rj) ∈ rest → findRoom rooms rj ≠ some r := by
            intro cj rj hm hfr
            have hcj : cj = ci := huni cj rj (List.mem_cons_of_mem _ hm) hfr
            exact hrest ⟨rj, hcj ▸ hm, hfr⟩
          rw [assignRooms_lookup_untouched rooms rest _ _ _ h hnone]
          rw [mapLookup_setMap, if_pos rfl]
        · exact absurd ⟨ri, hm, hfind⟩ hrest

/-! ## Position lemmas for slices of a duplicate-free list -/

theorem mem_slice_get? {l : List α} {a b : Nat} {x : α} (h : x ∈ slice l a b) :
    ∃ n, a ≤ n ∧ n < b ∧ l.get? n = some x := by
  unfold slice at h
  rcases List.mem_iff_get?.mp h with ⟨n, hn⟩
  have hlt : n < b - a := by
    rcases List.get?_eq_some.mp hn with ⟨hlen, _⟩
    rw [List.length_take] at hlen
    omega
  rw [List.get?_take hlt, List.get?_drop] at hn
  exact ⟨a + n, Nat.le_add_right a n, by omega, hn⟩

theorem mem_drop_get? {l : List α} {a : Nat} {x : α} (h : x ∈ l.drop a) :
    ∃ n, a ≤ n ∧ l.get? n = some x := by
  rcases List.mem_iff_get?.mp h with ⟨n, hn⟩
  rw [List.get?_drop] at hn
  exact ⟨a + n, Nat.le_add_right a n, hn⟩

theorem nodup_get?_inj {l : List α} (hnd : l.Nodup) {i j : Nat} {x : α}
    (hi : l.get? i = some x) (hj : l.get? j = some x) : i = j := by
  rcases List.get?_eq_some.mp hi with ⟨hi1, hi2⟩
  rcases List.get?_eq_some.mp hj with ⟨hj1, hj2⟩
  have h2 : (⟨i, hi1⟩ : Fin l.length) = ⟨j, hj1⟩ :=
    List.nodup_iff_injective_get.mp hnd (by rw [hi2, hj2])
  exact congrArg Fin.val h2

theorem mem_blockPairs {sc sr : List Nat} {factor : Nat} {ci ri : Nat} :
    (ci, ri) ∈ blockPairs sc sr factor ↔
      ci ∈ sc ∧ ri ∈ slice sr (ci * factor) ((ci + 1) * factor) := by
  unfold blockPairs
  rw [List.mem_flatten]
  constructor
  · rintro ⟨l, hl, hmem⟩
    rcases List.mem_map.mp hl with ⟨cj, hcj, rfl⟩
    rcases List.mem_map.mp hmem with ⟨rj, hrj, heq⟩
    injection heq with h1 h2
    subst h1
    subst h2
    exact ⟨hcj, hrj⟩
  · rintro ⟨hci, hri⟩
    exact ⟨(slice sr (ci * factor) ((ci + 1) * factor)).map (fun rj => (ci, rj)),
      List.mem_map.mpr ⟨ci, hci, rfl⟩,
      List.mem_map.mpr ⟨ri, hri, rfl⟩⟩

/-! ## C6: blocks are handed out in ascending capsule index order -/

theorem allocate_blocks_ascending (cfg : Config) (R : Nat → List Nat)
    (k : Nat) (room_indices : List Nat) (m m' : Mapping) (k' : Nat)
    (hnd : room_indices.Nodup)
    (halloc : allocate_rooms_randomly cfg R k room_indices m = .ok (m', k')) :
    ∀ i < cfg.capsules_count,
      ∀ ri ∈ slice (shuffle_list (R k) room_indices)
          (i * ((shuffle_list (R k) room_indices).length / cfg.capsules_count))
          ((i + 1) * ((shuffle_list (R k) room_indices).length / cfg.capsules_count)),
        ∀ r, findRoom cfg.rooms ri = some r →
          mapLookup m' r = some (some i) := by
  intro i hic ri hslice r hfr
  have hndsr : (shuffle_list (R k) room_indices).Nodup :=
    ((shuffle_list_perm (R k) room_indices).nodup_iff).mpr hnd
  simp only [allocate_rooms_randomly] at halloc
  rw [if_neg (by omega : ¬ cfg.capsules_count = 0)] at halloc
  cases h1 : assignRooms cfg.rooms
      (blockPairs (shuffle_list (R (k + 1)) (List.range cfg.capsules_count))
        (shuffle_list (R k) room_indices)
        ((shuffle_list (R k) room_indices).length / cfg.capsules_count)) m with
  | error e => rw [h1] at halloc; exact absurd halloc (by simp)
  | ok m1 =>
    rw [h1] at halloc
    dsimp only at halloc
    cases h2 : assignRooms cfg.rooms
        ((shuffle_list (R (k + 2))
            (shuffle_list (R (k + 1)) (List.range cfg.capsules_count))).zip
          ((shuffle_list (R k) room_indices).drop
            ((shuffle_list (R k) room_indices).length / cfg.capsules_count *
              cfg.capsules_count))) m1 with
    | error e => rw [h2] at halloc; exact absurd halloc (by simp)
    | ok m2 =>
      rw [h2] at halloc
      dsimp only at halloc
      injection halloc with halloc'
      have hm2 : m2 = m' := congrArg Prod.fst halloc'
      rw [← hm2]
      -- position of `ri` inside its block
      obtain ⟨n1, hn1a, hn1b, hn1⟩ := mem_slice_get? hslice
      -- Step 2: the remainder assignments never touch `r`
      have hstep2 : mapLookup m2 r = mapLookup m1 r := by
        apply assignRooms_lookup_untouched cfg.rooms _ _ _ _ h2
        intro cj rj hm hfr2
        have hrj : rj = ri := by
          have h1' := findRoom_index hfr
          have h2' := findRoom_index hfr2
          omega
        subst hrj
        have hdrop := (List.of_mem_zip hm).2
        obtain ⟨n2, hn2a, hn2⟩ := mem_drop_get? hdrop
        have heqn : n1 = n2 := nodup_get?_inj hndsr hn1 hn2
        have hub : (i + 1) * ((shuffle_list (R k) room_indices).length /
            cfg.capsules_count) ≤
            (shuffle_list (R k) room_indices).length /
              cfg.capsules_count * cfg.capsules_count := by
          have : i + 1 ≤ cfg.capsules_count := hic
          calc (i + 1) * ((shuffle_list (R k) room_indices).length /
                cfg.capsules_count)
              ≤ cfg.capsules_count * ((shuffle_list (R k) room_indices).length /
                cfg.capsules_count) := Nat.mul_le_mul_right _ this
            _ = (shuffle_list (R k) room_indices).length /
                cfg.capsules_count * cfg.capsules_count := Nat.mul_comm _ _
        omega
      rw [hstep2]
      -- Step 1: the block assignments set `r` to capsule `i`
      apply assignRooms_lookup_assigned cfg.rooms _ _ _ _ _ h1
      · refine ⟨ri, mem_blockPairs.mpr ⟨?_, hslice⟩, hfr⟩
        rw [(shuffle_list_perm _ _).mem_iff, List.mem_range]
        exact hic
      · intro cj rj hm hfr2
        have hrj : rj = ri := by
          have h1' := findRoom_index hfr
          have h2' := findRoom_index hfr2
          omega
        subst hrj
        rcases mem_blockPairs.mp hm with ⟨hcj, hslice2⟩
        have hcjlt : cj < cfg.capsules_count := by
          rw [(shuffle_list_perm _ _).mem_iff, List.mem_range] at hcj
          exact hcj
        obtain ⟨n2, hn2a, hn2b, hn2⟩ := mem_slice_get? hslice2
        have heqn : n1 = n2 := nodup_get?_inj hndsr hn1 hn2
        -- overlapping blocks force cj = i
        rcases Nat.lt_trichotomy cj i with hlt | heq | hgt
        · exfalso
          have : (cj + 1) * ((shuffle_list (R k) room_indices).length /
              cfg.capsules_count) ≤
              i * ((shuffle_list (R k) room_indices).length /
                cfg.capsules_count) :=
            Nat.mul_le_mul_right _ (by omega)
          omega
        · exact heq
        · exfalso
          have : (i + 1) * ((shuffle_list (R k) room_indices).length /
              cfg.capsules_count) ≤
              cj * ((shuffle_list (R k) room_indices).length /
                cfg.capsules_count) :=
            Nat.mul_le_mul_right _ (by omega)
          omega

/-- C6 amended.  The contiguous block
`shuffled_rooms[i*factor : (i+1)*factor]` is always assigned to capsule
`i` itself: the loop `for capsule_index in shuffled_capsules` indexes the
room slice by `capsule_index`, so the shuffled capsule sequence only
changes the iteration order of the block loop, never the block-to-capsule
correspondence, which is the identity on block positions; only the
remainder rooms' targets depend on the (re-shuffled) capsule sequence.
Stated for every run of `allocate_rooms_randomly` over duplicate-free
room indices that returns normally. -/
theorem C6_amended_block_i_to_capsule_i (cfg : Config) (R : Nat → List Nat)
    (k : Nat) (room_indices : List Nat) (m m' : Mapping) (k' : Nat)
    (hnd : room_indices.Nodup)
    (halloc : allocate_rooms_randomly cfg R k room_indices m = .ok (m', k')) :
    ∀ i < cfg.capsules_count,
      ∀ ri ∈ slice (shuffle_list (R k) room_indices)
          (i * ((shuffle_list (R k) room_indices).length / cfg.capsules_count))
          ((i + 1) * ((shuffle_list (R k) room_indices).length / cfg.capsules_count)),
        ∀ r, findRoom cfg.rooms ri = some r →
          mapLookup m' r = some (some i) :=
  allocate_blocks_ascending cfg R k room_indices m m' k' hnd halloc

/-- C6 counterexample.  The claim asserts that for some shuffle outcome a
block is handed to a capsule other than its own position; on the concrete
two-room, two-capsule instance no outcome of the random choices ever
assigns the room of block `i` of the shuffled room sequence to a capsule
other than `i`, refuting the claimed existence. -/
theorem C6_counterexample :
    ¬ ∃ (R : Nat → List Nat) (k : Nat) (mk : Mapping × Nat)
        (i ri : Nat) (r : Room),
      allocate_rooms_randomly ⟨fun _ => [], [⟨0, 0⟩, ⟨1, 0⟩], 2, [], 1, 1⟩
          R k [0, 1] [(⟨0, 0⟩, none), (⟨1, 0⟩, none)] = .ok mk ∧
      i < 2 ∧
      ri ∈ slice (shuffle_list (R k) [0, 1])
        (i * ((shuffle_list (R k) [0, 1]).length / 2))
        ((i + 1) * ((shuffle_list (R k) [0, 1]).length / 2)) ∧
      findRoom [⟨0, 0⟩, ⟨1, 0⟩] ri = some r ∧
      mapLookup mk.1 r ≠ some (some i) := by
  rintro ⟨R, k, mk, i, ri, r, halloc, hi, hsl, hfr, hne⟩
  exact hne (allocate_blocks_ascending
    ⟨fun _ => [], [⟨0, 0⟩, ⟨1, 0⟩], 2, [], 1, 1⟩ R k [0, 1]
    [(⟨0, 0⟩, none), (⟨1, 0⟩, none)] mk.1 mk.2 (by decide) halloc i hi ri hsl r hfr)

/-- Witness for C6 amended at a concrete run: with the identity shuffles,
room index `0` is block 0 and ends mapped to capsule 0. -/
theorem C6_amended_witness :
    mapLookup [((⟨0, 0⟩ : Room), some 0), (⟨1, 0⟩, some 1)] ⟨0, 0⟩ =
      some (some 0) :=
  C6_amended_block_i_to_capsule_i
    ⟨fun _ => [], [⟨0, 0⟩, ⟨1, 0⟩], 2, [], 1, 1⟩ (fun _ => []) 0 [0, 1]
    [(⟨0, 0⟩, none), (⟨1, 0⟩, none)]
    [((⟨0, 0⟩ : Room), some 0), (⟨1, 0⟩, some 1)] 3
    (by decide) rfl 0 (by decide) 0 (by decide) ⟨0, 0⟩ rfl

/-! ## C7: behaviour of the retry loop in existing-mapping mode -/

/-- C7 amended.  When a caller-supplied existing room mapping is
provided, it is installed once (by reference): the first build attempt
starts from it verbatim, and attempt initialization in that mode performs
no randomization at all (the build start returns the manager's current
mapping unchanged and consumes no oracle call).  But because the supplied
dict is aliased into `self.room_mapping` and mutated in place by repair,
each *subsequent* attempt starts from the mapping as left by the previous
failed attempt — not from the original verbatim mapping. -/
theorem C7_amended_existing_mode (cfg : Config) :
    (∀ (m : Mapping), (initState cfg (some m)).mapping = m) ∧
    (∀ (R : Nat → List Nat) (k : Nat) (st : MState),
      build_start cfg R k true st = .ok (st.mapping, k)) ∧
    (∀ (R : Nat → List Nat) (t k : Nat) (st st' : MState) (k' : Nat),
      build_capsules cfg R k true st = .ok (false, st', k') →
      init_loop cfg R true (t + 1) k st = init_loop cfg R true t k' st') := by
  refine ⟨fun m => rfl, fun R k st => rfl, ?_⟩
  intro R t k st st' k' hb
  simp only [init_loop, hb]

/-- C7 counterexample.  A concrete two-capsule run in existing-mapping
mode (`RoomCount(1)` global, both rooms initially in capsule 0,
`max_fixes_count = 1`, `max_tries_count = 2`): the first build attempt
completes with failure, leaving the shared mapping mutated
(room 0 moved to capsule 1), and the manager's retry loop continues from
exactly that mutated state — so the second attempt does not start from
the supplied mapping verbatim, refuting the claim. -/
theorem C7_counterexample :
    build_capsules
        ⟨fun _ => [], [⟨0, 0⟩, ⟨1, 0⟩], 2, [Constraint.RoomCountConstraint 1], 2, 1⟩
        (fun k => if k = 4 then [1, 0] else []) 0 true
        ⟨[(⟨0, 0⟩, some 0), (⟨1, 0⟩, some 0)], []⟩ =
      .ok (false,
        ⟨[(⟨0, 0⟩, some 1), (⟨1, 0⟩, some 0)],
          [⟨0, [⟨1, 0⟩], []⟩, ⟨1, [⟨0, 0⟩], []⟩]⟩, 5) ∧
    ([((⟨0, 0⟩ : Room), some 1), (⟨1, 0⟩, some 0)] : Mapping) ≠
      [(⟨0, 0⟩, some 0), (⟨1, 0⟩, some 0)] ∧
    CapsulesManager_init
        ⟨fun _ => [], [⟨0, 0⟩, ⟨1, 0⟩], 2, [Constraint.RoomCountConstraint 1], 2, 1⟩
        (some [(⟨0, 0⟩, some 0), (⟨1, 0⟩, some 0)])
        (fun k => if k = 4 then [1, 0] else []) 0 =
      init_loop
        ⟨fun _ => [], [⟨0, 0⟩, ⟨1, 0⟩], 2, [Constraint.RoomCountConstraint 1], 2, 1⟩
        (fun k => if k = 4 then [1, 0] else []) true 1 5
        ⟨[(⟨0, 0⟩, some 1), (⟨1, 0⟩, some 0)],
          [⟨0, [⟨1, 0⟩], []⟩, ⟨1, [⟨0, 0⟩], []⟩]⟩ :=
  ⟨rfl, by decide, rfl⟩

/-- Witness for C7 amended: the carry-over conjunct applied to the
concrete failed first attempt above. -/
theorem C7_amended_witness :
    init_loop
        ⟨fun _ => [], [⟨0, 0⟩, ⟨1, 0⟩], 2, [Constraint.RoomCountConstraint 1], 2, 1⟩
        (fun k => if k = 4 then [1, 0] else []) true 2 0
        ⟨[(⟨0, 0⟩, some 0), (⟨1, 0⟩, some 0)], []⟩ =
      init_loop
        ⟨fun _ => [], [⟨0, 0⟩, ⟨1, 0⟩], 2, [Constraint.RoomCountConstraint 1], 2, 1⟩
        (fun k => if k = 4 then [1, 0] else []) true 1 5
        ⟨[(⟨0, 0⟩, some 1), (⟨1, 0⟩, some 0)],
          [⟨0, [⟨1, 0⟩], []⟩, ⟨1, [⟨0, 0⟩], []⟩]⟩ :=
  (C7_amended_existing_mode
      ⟨fun _ => [], [⟨0, 0⟩, ⟨1, 0⟩], 2, [Constraint.RoomCountConstraint 1], 2, 1⟩).2.2
    (fun k => if k = 4 then [1, 0] else []) 1 0
    ⟨[(⟨0, 0⟩, some 0), (⟨1, 0⟩, some 0)], []⟩
    ⟨[(⟨0, 0⟩, some 1), (⟨1, 0⟩, some 0)],
      [⟨0, [⟨1, 0⟩], []⟩, ⟨1, [⟨0, 0⟩], []⟩]⟩ 5 rfl

/-! ## C9: the one-capsule `RoomCount(1)` scenario always exhausts -/

theorem C9_alloc (R : Nat → List Nat) (k : Nat) :
    allocate_rooms_randomly
        ⟨fun _ => [], [⟨1, 0⟩, ⟨2, 1⟩], 1, [Constraint.RoomCountConstraint 1], 1, 1⟩
        R k [1, 2] [(⟨1, 0⟩, none), (⟨2, 1⟩, none)] =
      .ok ([(⟨1, 0⟩, some 0), (⟨2, 1⟩, some 0)], k + 3) := by
  have hr : List.range 1 = [0] := rfl
  simp only [allocate_rooms_randomly, hr, shuffle_list_singleton]
  rcases shuffle_list_pair (R k) (1 : Nat) 2 with h | h <;> rw [h] <;> rfl

theorem C9_fix (R : Nat → List Nat) (k : Nat) :
    fix_capsules
        ⟨fun _ => [], [⟨1, 0⟩, ⟨2, 1⟩], 1, [Constraint.RoomCountConstraint 1], 1, 1⟩
        R k ⟨[(⟨1, 0⟩, some 0), (⟨2, 1⟩, some 0)], [⟨0, [⟨1, 0⟩, ⟨2, 1⟩], []⟩]⟩ =
      .ok (true,
        ⟨[(⟨1, 0⟩, some 0), (⟨2, 1⟩, some 0)], [⟨0, [⟨1, 0⟩, ⟨2, 1⟩], []⟩]⟩,
        k + 5) := by
  have hr : List.range 1 = [0] := rfl
  simp only [fix_capsules, shuffle_list_singleton, fixScan, Capsule.apply_constraints,
    Capsule.is_valid, sortConstraints, checkConstraints, Constraint.is_valid,
    fix_orphans, allocate_rooms_randomly, hr]
  rcases shuffle_list_pair (R (k + 1)) (⟨1, 0⟩ : Room) ⟨2, 1⟩ with h | h <;>
    simp [h, shuffle_list_singleton, hr, fix_orphans, allocate_rooms_randomly,
      commitActions, update_capsules, Capsule.update, Action.doAction, Action.room,
      Action.targetValue, setMap, replaceCap, assignRooms, blockPairs, slice, findRoom]

theorem C9_build (R : Nat → List Nat) (k : Nat) :
    build_capsules
        ⟨fun _ => [], [⟨1, 0⟩, ⟨2, 1⟩], 1, [Constraint.RoomCountConstraint 1], 1, 1⟩
        R k false ⟨[(⟨1, 0⟩, none), (⟨2, 1⟩, none)], []⟩ =
      .ok (false,
        ⟨[(⟨1, 0⟩, some 0), (⟨2, 1⟩, some 0)], [⟨0, [⟨1, 0⟩, ⟨2, 1⟩], []⟩]⟩,
        k + 8) := by
  have hr : List.range 1 = [0] := rfl
  simp [build_capsules, build_start, C9_alloc R k, fixRounds, C9_fix R, hr,
    Capsule.update]

/-- C9.  For the concrete input with `capsules_count = 1`, one global
`RoomCount(max = 1)` constraint, two rooms of different genders with no
room-attached constraints, `max_tries_count = 1` and
`max_fixes_count = 1`, the build fails for **every** outcome of the
random choices (every oracle `R` and counter `k`): the single fix round
always reduces one of the two rooms out of the lone capsule only to
re-allocate it back, so fixing is still needed when the budget runs out,
and the constructor raises the fatal
`RuntimeError("Reached maximum try attempts")`. -/
theorem C9_scenario_always_exhausts (R : Nat → List Nat) (k : Nat) :
    CapsulesManager_init
        ⟨fun _ => [], [⟨1, 0⟩, ⟨2, 1⟩], 1, [Constraint.RoomCountConstraint 1], 1, 1⟩
        none R k = .error (.runtimeError "Reached maximum try attempts") := by
  simp [CapsulesManager_init, initState, init_loop, C9_build R k]

/-! ## C1: invariant machinery — mapping level -/

theorem mem_setMap (r : Room) (v : Option Nat) :
    ∀ (m : Mapping) (p : Room × Option Nat),
      p ∈ setMap m r v → p = (r, v) ∨ p ∈ m := by
  intro m
  induction m with
  | nil =>
    intro p h
    simp only [setMap, List.mem_singleton] at h
    exact Or.inl h
  | cons q t ih =>
    intro p h
    simp only [setMap] at h
    by_cases hq : q.1 = r
    · rw [if_pos hq] at h
      rcases List.mem_cons.mp h with h | h
      · exact Or.inl h
      · exact Or.inr (List.mem_cons_of_mem q h)
    · rw [if_neg hq] at h
      rcases List.mem_cons.mp h with h | h
      · exact Or.inr (h ▸ List.mem_cons_self q t)
      · rcases ih p h with h | h
        · exact Or.inl h
        · exact Or.inr (List.mem_cons_of_mem q h)

theorem lookup_key_setMap (m : Mapping) (r : Room) (v : Option Nat)
    (r' : Room) (h : ∃ w, mapLookup m r' = some w) :
    ∃ w, mapLookup (setMap m r v) r' = some w := by
  rcases h with ⟨w, hw⟩
  rw [mapLookup_setMap]
  by_cases h' : r' = r
  · exact ⟨v, by rw [if_pos h']⟩
  · exact ⟨w, by rw [if_neg h']; exact hw⟩

theorem mapLookup_mem :
    ∀ (m : Mapping) (r : Room) (v : Option Nat),
      mapLookup m r = some v → ∃ p ∈ m, p.2 = v := by
  intro m
  induction m with
  | nil => intro r v h; exact absurd h (by simp [mapLookup])
  | cons q t ih =>
    intro r v h
    simp only [mapLookup] at h
    by_cases hq : q.1 = r
    · rw [if_pos hq] at h
      injection h with h
      exact ⟨q, List.mem_cons_self q t, h⟩
    · rw [if_neg hq] at h
      rcases ih r v h with ⟨p, hp, hv⟩
      exact ⟨p, List.mem_cons_of_mem q hp, hv⟩

theorem mapLookup_init (rooms : List Room) (r : Room) (hr : r ∈ rooms) :
    mapLookup (rooms.map (fun r => (r, none))) r = some none := by
  induction rooms with
  | nil => exact absurd hr (List.not_mem_nil r)
  | cons a t ih =>
    simp only [List.map_cons, mapLookup]
    by_cases ha : a = r
    · rw [if_pos ha]
    · rw [if_neg ha]
      rcases List.mem_cons.mp hr with h | h
      · exact absurd h.symm ha
      · exact ih h

theorem assignRooms_inv (rooms : List Room) (c : Nat) :
    ∀ (pairs : List (Nat × Nat)) (m m' : Mapping),
      assignRooms rooms pairs m = .ok m' →
      (∀ ci ri, (ci, ri) ∈ pairs → ci < c) →
      (∀ p ∈ m, ∀ i, p.2 = some i → i < c) →
      ((∀ p ∈ m', ∀ i, p.2 = some i → i < c) ∧
        ∀ r', (∃ w, mapLookup m r' = some w) → ∃ w, mapLookup m' r' = some w) := by
  intro pairs
  induction pairs with
  | nil =>
    intro m m' h _ hv
    simp only [assignRooms] at h
    injection h with h
    exact ⟨h ▸ hv, fun r' hk => h ▸ hk⟩
  | cons pr rest ih =>
    intro m m' h hci hv
    obtain ⟨ci, ri⟩ := pr
    simp only [assignRooms] at h
    cases hf : findRoom rooms ri with
    | none => rw [hf] at h; exact absurd h (by simp)
    | some r0 =>
      rw [hf] at h
      have hv' : ∀ p ∈ setMap m r0 (some ci), ∀ i, p.2 = some i → i < c := by
        intro p hp i hpi
        rcases mem_setMap r0 (some ci) m p hp with hp | hp
        · rw [hp] at hpi
          injection hpi with hpi
          rw [← hpi]
          exact hci ci ri (by simp)
        · exact hv p hp i hpi
      rcases ih _ _ h (fun cj rj hm => hci cj rj (List.mem_cons_of_mem _ hm)) hv' with
        ⟨hval, hkey⟩
      exact ⟨hval, fun r' hk => hkey r' (lookup_key_setMap m r0 (some ci) r' hk)⟩

theorem allocate_inv (cfg : Config) (R : Nat → List Nat) (k : Nat)
    (room_indices : List Nat) (m m' : Mapping) (k' : Nat)
    (h : allocate_rooms_randomly cfg R k room_indices m = .ok (m', k'))
    (hv : ∀ p ∈ m, ∀ i, p.2 = some i → i < cfg.capsules_count) :
    (∀ p ∈ m', ∀ i, p.2 = some i → i < cfg.capsules_count) ∧
      ∀ r', (∃ w, mapLookup m r' = some w) → ∃ w, mapLookup m' r' = some w := by
  simp only [allocate_rooms_randomly] at h
  by_cases hc : cfg.capsules_count = 0
  · rw [if_pos hc] at h; exact absurd h (by simp)
  rw [if_neg hc] at h
  cases h1 : assignRooms cfg.rooms
      (blockPairs (shuffle_list (R (k + 1)) (List.range cfg.capsules_count))
        (shuffle_list (R k) room_indices)
        ((shuffle_list (R k) room_indices).length / cfg.capsules_count)) m with
  | error e => rw [h1] at h; exact absurd h (by simp)
  | ok m1 =>
    rw [h1] at h
    dsimp only at h
    cases h2 : assignRooms cfg.rooms
        ((shuffle_list (R (k + 2))
            (shuffle_list (R (k + 1)) (List.range cfg.capsules_count))).zip
          ((shuffle_list (R k) room_indices).drop
            ((shuffle_list (R k) room_indices).length / cfg.capsules_count *
              cfg.capsules_count))) m1 with
    | error e => rw [h2] at h; exact absurd h (by simp)
    | ok m2 =>
      rw [h2] at h
      dsimp only at h
      injection h with h
      have hm2 : m2 = m' := congrArg Prod.fst h
      subst hm2
      have hci1 : ∀ ci ri,
          (ci, ri) ∈ blockPairs (shuffle_list (R (k + 1)) (List.range cfg.capsules_count))
            (shuffle_list (R k) room_indices)
            ((shuffle_list (R k) room_indices).length / cfg.capsules_count) →
          ci < cfg.capsules_count := by
        intro ci ri hm
        have hsc := (mem_blockPairs.mp hm).1
        rw [(shuffle_list_perm _ _).mem_iff, List.mem_range] at hsc
        exact hsc
      have hci2 : ∀ ci ri,
          (ci, ri) ∈ (shuffle_list (R (k + 2))
              (shuffle_list (R (k + 1)) (List.range cfg.capsules_count))).zip
            ((shuffle_list (R k) room_indices).drop
              ((shuffle_list (R k) room_indices).length / cfg.capsules_count *
                cfg.capsules_count)) →
          ci < cfg.capsules_count := by
        intro ci ri hm
        have hsc := (List.of_mem_zip hm).1
        rw [(shuffle_list_perm _ _).mem_iff, (shuffle_list_perm _ _).mem_iff,
          List.mem_range] at hsc
        exact hsc
      rcases assignRooms_inv cfg.rooms cfg.capsules_count _ m m1 h1 hci1 hv with
        ⟨hval1, hkey1⟩
      rcases assignRooms_inv cfg.rooms cfg.capsules_count _ m1 m2 h2 hci2 hval1 with
        ⟨hval2, hkey2⟩
      exact ⟨hval2, fun r' hk => hkey2 r' (hkey1 r' hk)⟩

/-! ## C1: invariant machinery — suggested actions target the checked capsule -/

theorem constraint_is_valid_actions (c : Constraint) (R : Nat → List Nat)
    (k : Nat) (capsule_index : Nat) (rooms : List Room) (b : Bool)
    (acts : List Action) (k' : Nat)
    (h : c.is_valid R k capsule_index rooms = .ok ((b, acts), k')) :
    ∀ a ∈ acts, a.targetValue = none ∨ a.targetValue = some capsule_index := by
  cases c with
  | GenderConstraint =>
    simp only [Constraint.is_valid] at h
    by_cases h1 : (counterKeys (rooms.map Room.gender)).length = 1
    · rw [if_pos h1] at h
      simp only [Except.ok.injEq, Prod.mk.injEq] at h
      obtain ⟨⟨_, hacts⟩, _⟩ := h
      intro a ha
      rw [← hacts] at ha
      exact absurd ha (List.not_mem_nil a)
    · by_cases h2 : (counterKeys (rooms.map Room.gender)).length = 2
      · rw [if_neg h1, if_pos h2] at h
        simp only [Except.ok.injEq, Prod.mk.injEq] at h
        obtain ⟨⟨_, hacts⟩, _⟩ := h
        intro a ha
        rw [← hacts] at ha
        rcases List.mem_map.mp ha with ⟨r, _, hr⟩
        rw [← hr]
        exact Or.inl rfl
      · rw [if_neg h1, if_neg h2] at h
        exact absurd h (by simp)
  | RoomCountConstraint mx =>
    simp only [Constraint.is_valid] at h
    by_cases h1 : rooms.length ≤ mx
    · rw [if_pos h1] at h
      simp only [Except.ok.injEq, Prod.mk.injEq] at h
      obtain ⟨⟨_, hacts⟩, _⟩ := h
      intro a ha
      rw [← hacts] at ha
      exact absurd ha (List.not_mem_nil a)
    · rw [if_neg h1] at h
      simp only [Except.ok.injEq, Prod.mk.injEq] at h
      obtain ⟨⟨_, hacts⟩, _⟩ := h
      intro a ha
      rw [← hacts] at ha
      rcases List.mem_map.mp ha with ⟨r, _, hr⟩
      rw [← hr]
      exact Or.inl rfl
  | ConnectingConstraint r1 r2 =>
    simp only [Constraint.is_valid] at h
    by_cases hx : (decide (r1 ∈ rooms)) ≠ (decide (r2 ∈ rooms))
    · rw [if_pos hx] at h
      by_cases hb1 : (decide (r1 ∈ rooms)) = false
      · rw [if_pos hb1] at h
        simp only [Except.ok.injEq, Prod.mk.injEq] at h
        obtain ⟨⟨_, hacts⟩, _⟩ := h
        intro a ha
        rw [← hacts] at ha
        rw [List.mem_singleton] at ha
        rw [ha]
        exact Or.inr rfl
      · rw [if_neg hb1] at h
        simp only [Except.ok.injEq, Prod.mk.injEq] at h
        obtain ⟨⟨_, hacts⟩, _⟩ := h
        intro a ha
        rw [← hacts] at ha
        rw [List.mem_singleton] at ha
        rw [ha]
        exact Or.inr rfl
    · rw [if_neg hx] at h
      simp only [Except.ok.injEq, Prod.mk.injEq] at h
      obtain ⟨⟨_, hacts⟩, _⟩ := h
      intro a ha
      rw [← hacts] at ha
      exact absurd ha (List.not_mem_nil a)

theorem checkConstraints_actions (R : Nat → List Nat) (capsule_index : Nat)
    (rooms : List Room) :
    ∀ (cs : List Constraint) (k : Nat) (b : Bool) (acts : List Action) (k' : Nat),
      checkConstraints R k capsule_index rooms cs = .ok ((b, acts), k') →
      ∀ a ∈ acts, a.targetValue = none ∨ a.targetValue = some capsule_index := by
  intro cs
  induction cs with
  | nil =>
    intro k b acts k' h
    simp only [checkConstraints, Except.ok.injEq, Prod.mk.injEq] at h
    obtain ⟨⟨_, hacts⟩, _⟩ := h
    intro a ha
    rw [← hacts] at ha
    exact absurd ha (List.not_mem_nil a)
  | cons c rest ih =>
    intro k b acts k' h
    simp only [checkConstraints] at h
    cases hv : c.is_valid R k capsule_index rooms with
    | error e => rw [hv] at h; exact absurd h (by simp)
    | ok res =>
      obtain ⟨⟨bv, state⟩, kv⟩ := res
      rw [hv] at h
      cases bv with
      | true =>
        dsimp only at h
        exact ih kv b acts k' h
      | false =>
        dsimp only at h
        simp only [Except.ok.injEq, Prod.mk.injEq] at h
        obtain ⟨⟨_, hacts⟩, _⟩ := h
        intro a ha
        rw [← hacts] at ha
        exact constraint_is_valid_actions c R k capsule_index rooms false state kv hv a ha

theorem capsule_is_valid_actions (R : Nat → List Nat) (k : Nat) (cap : Capsule)
    (b : Bool) (acts : List Action) (k' : Nat)
    (h : cap.is_valid R k = .ok ((b, acts), k')) :
    ∀ a ∈ acts, a.targetValue = none ∨ a.targetValue = some cap.index :=
  checkConstraints_actions R cap.index cap.rooms _ k b acts k' h

/-! ## C1: invariant machinery — state level -/

theorem update_capsules_map_index (cfg : Config) (m : Mapping)
    (caps : List Capsule) :
    (update_capsules cfg m caps).map Capsule.index = caps.map Capsule.index := by
  unfold update_capsules
  rw [List.map_map]
  apply List.map_congr_left
  intro c _
  rfl

theorem replaceCap_map_index (caps : List Capsule) (c' : Capsule) :
    (replaceCap caps c').map Capsule.index = caps.map Capsule.index := by
  unfold replaceCap
  rw [List.map_map]
  apply List.map_congr_left
  intro x _
  simp only [Function.comp_apply]
  by_cases h : x.index = c'.index
  · rw [if_pos h, ← h]
  · rw [if_neg h]

theorem index_lt_of_map_index_eq {caps1 caps0 : List Capsule} {n : Nat}
    (heq : caps1.map Capsule.index = caps0.map Capsule.index)
    (h0 : ∀ c ∈ caps0, c.index < n) : ∀ c ∈ caps1, c.index < n := by
  intro c hc
  have hmem : c.index ∈ caps1.map Capsule.index := List.mem_map_of_mem _ hc
  rw [heq] at hmem
  rcases List.mem_map.mp hmem with ⟨c0, hc0, hidx⟩
  rw [← hidx]
  exact h0 c0 hc0

theorem fixScan_pres (cfg : Config) (R : Nat → List Nat) :
    ∀ (order : List Capsule) (k : Nat) (caps caps' : List Capsule)
      (found : Option (List Action)) (k' : Nat),
      fixScan cfg R k caps order = .ok (caps', found, k') →
      caps'.map Capsule.index = caps.map Capsule.index ∧
      ((∀ cap ∈ order, cap.index < cfg.capsules_count) →
        ∀ acts, found = some acts →
          ∀ a ∈ acts, a.targetValue = none ∨
            ∃ i, a.targetValue = some i ∧ i < cfg.capsules_count) := by
  intro order
  induction order with
  | nil =>
    intro k caps caps' found k' h
    simp only [fixScan, Except.ok.injEq, Prod.mk.injEq] at h
    obtain ⟨hcaps, hfound, _⟩ := h
    refine ⟨by rw [← hcaps], ?_⟩
    intro _ acts hacts
    rw [← hfound] at hacts
    exact absurd hacts (by simp)
  | cons c rest ih =>
    intro k caps caps' found k' h
    simp only [fixScan, Capsule.apply_constraints] at h
    cases hv : Capsule.is_valid R k
        { c with constraints := c.constraints ++ cfg.global_constraints } with
    | error e => rw [hv] at h; exact absurd h (by simp)
    | ok res =>
      obtain ⟨⟨bv, state⟩, kv⟩ := res
      rw [hv] at h
      cases bv with
      | true =>
        dsimp only at h
        rcases ih kv _ _ _ _ h with ⟨hidx, hacts⟩
        refine ⟨by rw [hidx, replaceCap_map_index], ?_⟩
        intro horder acts hf
        exact hacts (fun cap hc => horder cap (List.mem_cons_of_mem c hc)) acts hf
      | false =>
        dsimp only at h
        simp only [Except.ok.injEq, Prod.mk.injEq] at h
        obtain ⟨hcaps, hfound, _⟩ := h
        refine ⟨by rw [← hcaps, replaceCap_map_index], ?_⟩
        intro horder acts hf
        rw [← hfound] at hf
        injection hf with hf
        intro a ha
        rw [← hf] at ha
        rcases capsule_is_valid_actions R k _ false state kv hv a ha with h0 | h0
        · exact Or.inl h0
        · exact Or.inr ⟨c.index, h0, horder c (List.mem_cons_self c rest)⟩

theorem commitActions_pres (cfg : Config) :
    ∀ (acts : List Action) (st : MState),
      (∀ a ∈ acts, a.targetValue = none ∨
        ∃ i, a.targetValue = some i ∧ i < cfg.capsules_count) →
      MapInv cfg st.mapping →
      MapInv cfg (commitActions cfg acts st).mapping ∧
        (commitActions cfg acts st).capsules.map Capsule.index =
          st.capsules.map Capsule.index := by
  intro acts
  induction acts with
  | nil => intro st _ hm; exact ⟨hm, rfl⟩
  | cons a rest ih =>
    intro st hwf hm
    simp only [commitActions]
    have hm' : MapInv cfg (a.doAction st.mapping) := by
      unfold Action.doAction
      constructor
      · intro r hr
        exact lookup_key_setMap st.mapping a.room a.targetValue r (hm.1 r hr)
      · intro p hp i hpi
        rcases mem_setMap a.room a.targetValue st.mapping p hp with hp | hp
        · rw [hp] at hpi
          dsimp only at hpi
          rcases hwf a (List.mem_cons_self a rest) with h0 | ⟨j, hj, hjc⟩
          · rw [h0] at hpi; exact absurd hpi (by simp)
          · rw [hj] at hpi; injection hpi with hpi; rw [← hpi]; exact hjc
        · exact hm.2 p hp i hpi
    rcases ih ⟨a.doAction st.mapping,
        update_capsules cfg (a.doAction st.mapping) st.capsules⟩
      (fun a' ha' => hwf a' (List.mem_cons_of_mem a ha')) hm' with ⟨h1, h2⟩
    exact ⟨h1, by rw [h2]; exact update_capsules_map_index cfg _ _⟩

theorem fix_orphans_pres (cfg : Config) (R : Nat → List Nat)
    (need_fixing : Bool) (k : Nat) (st : MState) (b : Bool) (st' : MState)
    (k' : Nat) (hInv : InvS cfg st)
    (h : fix_orphans cfg R need_fixing k st = .ok (b, st', k')) :
    InvS cfg st' ∧ (b = false → ∀ p ∈ st'.mapping, p.2 ≠ none) := by
  simp only [fix_orphans] at h
  by_cases ho : (st.mapping.filterMap
      (fun p => if p.2 = none then some p.1.index else none)).isEmpty
  · rw [if_pos ho] at h
    simp only [Except.ok.injEq, Prod.mk.injEq] at h
    obtain ⟨_, hst, _⟩ := h
    refine ⟨hst ▸ hInv, ?_⟩
    intro _ p hp
    rw [← hst] at hp
    have hnil : st.mapping.filterMap
        (fun p => if p.2 = none then some p.1.index else none) = [] :=
      List.isEmpty_iff.mp ho
    have := (List.filterMap_eq_nil_iff.mp hnil) p hp
    intro hpn
    rw [if_pos hpn] at this
    exact absurd this (by simp)
  · rw [if_neg ho] at h
    cases hal : allocate_rooms_randomly cfg R k
        (st.mapping.filterMap (fun p => if p.2 = none then some p.1.index else none))
        st.mapping with
    | error e => rw [hal] at h; exact absurd h (by simp)
    | ok mk2 =>
      obtain ⟨m2, k2⟩ := mk2
      rw [hal] at h
      dsimp only at h
      simp only [Except.ok.injEq, Prod.mk.injEq] at h
      obtain ⟨hb, hst, _⟩ := h
      rcases allocate_inv cfg R k _ st.mapping m2 k2 hal hInv.1.2 with ⟨hval, hkey⟩
      refine ⟨?_, ?_⟩
      · rw [← hst]
        refine ⟨⟨fun r hr => hkey r (hInv.1.1 r hr), hval⟩, ?_⟩
        exact index_lt_of_map_index_eq (update_capsules_map_index cfg m2 st.capsules)
          hInv.2
      · intro hbf
        rw [← hb] at hbf
        exact absurd hbf (by simp)

theorem fix_capsules_pres (cfg : Config) (R : Nat → List Nat) (k : Nat)
    (st : MState) (b : Bool) (st' : MState) (k' : Nat) (hInv : InvS cfg st)
    (h : fix_capsules cfg R k st = .ok (b, st', k')) :
    InvS cfg st' ∧ (b = false → ∀ p ∈ st'.mapping, p.2 ≠ none) := by
  simp only [fix_capsules] at h
  cases hscan : fixScan cfg R (k + 1) st.capsules
      (shuffle_list (R k) st.capsules) with
  | error e => rw [hscan] at h; exact absurd h (by simp)
  | ok res =>
    obtain ⟨caps1, found, k1⟩ := res
    rw [hscan] at h
    rcases fixScan_pres cfg R _ _ _ _ _ _ hscan with ⟨hidx, hacts⟩
    have hcaps1 : ∀ cap ∈ caps1, cap.index < cfg.capsules_count :=
      index_lt_of_map_index_eq hidx hInv.2
    cases found with
    | none =>
      dsimp only at h
      exact fix_orphans_pres cfg R false k1 ⟨st.mapping, caps1⟩ b st' k'
        ⟨hInv.1, hcaps1⟩ h
    | some actions =>
      dsimp only at h
      have hwf : ∀ a ∈ actions, a.targetValue = none ∨
          ∃ i, a.targetValue = some i ∧ i < cfg.capsules_count :=
        hacts
          (fun cap hc =>
            hInv.2 cap ((shuffle_list_perm (R k) st.capsules).subset hc))
          actions rfl
      rcases commitActions_pres cfg actions ⟨st.mapping, caps1⟩ hwf hInv.1 with
        ⟨hm1, hcidx⟩
      refine fix_orphans_pres cfg R true k1 _ b st' k' ⟨hm1, ?_⟩ h
      exact index_lt_of_map_index_eq hcidx hcaps1

theorem fixRounds_pres (cfg : Config) (R : Nat → List Nat) :
    ∀ (f k : Nat) (st : MState) (b : Bool) (st' : MState) (k' : Nat),
      InvS cfg st → fixRounds cfg R f k st = .ok (b, st', k') →
      InvS cfg st' ∧ (b = true → ∀ p ∈ st'.mapping, p.2 ≠ none) := by
  intro f
  induction f with
  | zero =>
    intro k st b st' k' hInv h
    simp only [fixRounds, Except.ok.injEq, Prod.mk.injEq] at h
    obtain ⟨hb, hst, _⟩ := h
    refine ⟨hst ▸ hInv, ?_⟩
    intro hbt
    rw [← hb] at hbt
    exact absurd hbt (by simp)
  | succ f ih =>
    intro k st b st' k' hInv h
    simp only [fixRounds] at h
    cases hfix : fix_capsules cfg R k st with
    | error e => rw [hfix] at h; exact absurd h (by simp)
    | ok res =>
      obtain ⟨bb, st1, k1⟩ := res
      rw [hfix] at h
      cases bb with
      | false =>
        dsimp only at h
        simp only [Except.ok.injEq, Prod.mk.injEq] at h
        obtain ⟨_, hst, _⟩ := h
        rcases fix_capsules_pres cfg R k st false st1 k1 hInv hfix with ⟨hInv1, hnn⟩
        exact ⟨hst ▸ hInv1, fun _ => hst ▸ hnn rfl⟩
      | true =>
        dsimp only at h
        rcases fix_capsules_pres cfg R k st true st1 k1 hInv hfix with ⟨hInv1, _⟩
        exact ih k1 st1 b st' k' hInv1 h

theorem build_pres (cfg : Config) (R : Nat → List Nat) (k : Nat)
    (use_existing : Bool) (st : MState) (b : Bool) (st' : MState) (k' : Nat)
    (hm : MapInv cfg st.mapping)
    (h : build_capsules cfg R k use_existing st = .ok (b, st', k')) :
    InvS cfg st' ∧ (b = true → ∀ p ∈ st'.mapping, p.2 ≠ none) := by
  simp only [build_capsules] at h
  cases hbs : build_start cfg R k use_existing st with
  | error e => rw [hbs] at h; exact absurd h (by simp)
  | ok mk =>
    obtain ⟨m, k2⟩ := mk
    rw [hbs] at h
    dsimp only at h
    by_cases hfx : cfg.max_fixes_count = 0
    · rw [if_pos hfx] at h; exact absurd h (by simp)
    rw [if_neg hfx] at h
    have hmInv : MapInv cfg m := by
      cases use_existing with
      | false =>
        simp only [build_start, Bool.false_eq_true, if_false] at hbs
        rcases allocate_inv cfg R k _ st.mapping m k2 hbs hm.2 with ⟨hval, hkey⟩
        exact ⟨fun r hr => hkey r (hm.1 r hr), hval⟩
      | true =>
        simp only [build_start, if_pos, Except.ok.injEq, Prod.mk.injEq] at hbs
        rw [← hbs.1]
        exact hm
    have hcaps : ∀ cap ∈ (List.range cfg.capsules_count).map
        (fun i => Capsule.update cfg.rc m ⟨i, [], []⟩),
        cap.index < cfg.capsules_count := by
      intro cap hc
      rcases List.mem_map.mp hc with ⟨i, hi, hcap⟩
      rw [← hcap]
      exact List.mem_range.mp hi
    exact fixRounds_pres cfg R cfg.max_fixes_count k2 ⟨m, _⟩ b st' k'
      ⟨hmInv, hcaps⟩ h

theorem init_loop_pres (cfg : Config) (R : Nat → List Nat)
    (use_existing : Bool) :
    ∀ (t k : Nat) (st : MState) (st' : MState) (k' : Nat),
      MapInv cfg st.mapping →
      init_loop cfg R use_existing t k st = .ok (st', k') →
      InvS cfg st' ∧ ∀ p ∈ st'.mapping, p.2 ≠ none := by
  intro t
  induction t with
  | zero => intro k st st' k' _ h; exact absurd h (by simp [init_loop])
  | succ t ih =>
    intro k st st' k' hm h
    simp only [init_loop] at h
    cases hb : build_capsules cfg R k use_existing st with
    | error e => rw [hb] at h; exact absurd h (by simp)
    | ok res =>
      obtain ⟨bb, st1, k1⟩ := res
      rw [hb] at h
      cases bb with
      | true =>
        dsimp only at h
        simp only [Except.ok.injEq, Prod.mk.injEq] at h
        obtain ⟨hst, _⟩ := h
        rcases build_pres cfg R k use_existing st true st1 k1 hm hb with ⟨hInv1, hnn⟩
        exact ⟨hst ▸ hInv1, hst ▸ hnn rfl⟩
      | false =>
        dsimp only at h
        rcases build_pres cfg R k use_existing st false st1 k1 hm hb with ⟨hInv1, _⟩
        exact ih k1 st1 st' k' hInv1.1 h

/-- C1 amended.  For every run in which the `CapsulesManager` constructor
returns successfully, **provided** any caller-supplied existing mapping
is well formed (it has every input room among its keys and assigns only
indices below `capsules_count`), the final room mapping assigns every
input room exactly one capsule index in `[0, capsules_count)` and no room
is left mapped to `None`.  (Without that proviso the claim fails: the
existing mapping is installed verbatim and an out-of-range index on an
otherwise valid state survives to a successful return — see the
counterexample.)  For runs without a caller-supplied mapping the proviso
is vacuous, so the original claim holds there unconditionally. -/
theorem C1_amended_success_mapping_total (cfg : Config)
    (existing : Option Mapping) (R : Nat → List Nat) (k : Nat)
    (st' : MState) (k' : Nat)
    (hex : ∀ m, existing = some m →
      (∀ r ∈ cfg.rooms, ∃ v, mapLookup m r = some v) ∧
      (∀ p ∈ m, ∀ i, p.2 = some i → i < cfg.capsules_count))
    (h : CapsulesManager_init cfg existing R k = .ok (st', k')) :
    ∀ r ∈ cfg.rooms, ∃ i, i < cfg.capsules_count ∧
      mapLookup st'.mapping r = some (some i) := by
  have hm0 : MapInv cfg (initState cfg existing).mapping := by
    cases existing with
    | none =>
      constructor
      · intro r hr
        exact ⟨none, mapLookup_init cfg.rooms r hr⟩
      · intro p hp i hpi
        rcases List.mem_map.mp hp with ⟨r0, _, hr0⟩
        rw [← hr0] at hpi
        exact absurd hpi (by simp)
    | some m => exact hex m rfl
  unfold CapsulesManager_init at h
  rcases init_loop_pres cfg R existing.isSome cfg.max_tries_count k _ st' k'
    hm0 h with ⟨⟨⟨hkeys, hvals⟩, _⟩, hnn⟩
  intro r hr
  obtain ⟨v, hv⟩ := hkeys r hr
  rcases mapLookup_mem st'.mapping r v hv with ⟨p, hp, hpv⟩
  cases v with
  | none => exact absurd (hpv ▸ rfl) (hnn p hp)
  | some i => exact ⟨i, hvals p hp i hpv, hv⟩

/-- C1 counterexample.  A caller-supplied existing mapping binding the
single room to capsule index `5` with `capsules_count = 1` and no
constraints: the lone capsule (empty, no constraints) is valid and no
room is orphaned, so the constructor returns successfully — yet the final
mapping assigns the input room the out-of-range index `5 ∉ [0, 1)`. -/
theorem C1_counterexample :
    CapsulesManager_init ⟨fun _ => [], [⟨1, 0⟩], 1, [], 1, 1⟩
        (some [(⟨1, 0⟩, some 5)]) (fun _ => []) 0 =
      .ok (⟨[(⟨1, 0⟩, some 5)], [⟨0, [], []⟩]⟩, 1) ∧
    mapLookup [((⟨1, 0⟩ : Room), some 5)] ⟨1, 0⟩ = some (some 5) ∧
    ¬ (5 < 1) :=
  ⟨rfl, rfl, by decide⟩

/-- Witness for C1 amended at a concrete successful run (no existing
mapping supplied). -/
theorem C1_amended_witness :
    ∃ i, i < 1 ∧
      mapLookup [((⟨1, 0⟩ : Room), some 0)] ⟨1, 0⟩ = some (some i) :=
  C1_amended_success_mapping_total ⟨fun _ => [], [⟨1, 0⟩], 1, [], 1, 1⟩
    none (fun _ => []) 0
    ⟨[(⟨1, 0⟩, some 0)], [⟨0, [⟨1, 0⟩], []⟩]⟩ 4
    (fun m hm => absurd hm (by simp)) rfl ⟨1, 0⟩ (by decide)

end CoronaRoom
